import Mathlib

/-!
Shallow embedding of the BAW Cesium viewer comments subsystem:
the `LocalCommentsAPI` store and the `CommentsManager` placement workflow
(version 2.1.0 of the comments module).  Definitions are translated from
the JavaScript source; JavaScript numbers are modelled as `JSNum`
(a rational value or `NaN`), JavaScript objects used as string-keyed maps
are modelled as insertion-ordered association lists, and the wall clock
(`Date.now()` / `new Date().toISOString()`) is passed in explicitly.
`localStorage` persistence is modelled by a call counter on the store
(`saveCount`); no claim depends on the stored bytes.
-/

namespace Baw

/-! ### Decimal digit strings (model of JavaScript number-to-string) -/

/-- The decimal digit character for `n < 10`. -/
def decDigit (n : Nat) : Char := Char.ofNat (48 + n)

/-- Fuelled most-significant-first decimal digits of a natural number. -/
def natDigitsAux : Nat → Nat → List Char
  | 0, _ => []
  | f + 1, n => if n < 10 then [decDigit n] else natDigitsAux f (n / 10) ++ [decDigit (n % 10)]

/-- Most-significant-first decimal digits of a natural number. -/
def natDigits (n : Nat) : List Char := natDigitsAux (n + 1) n

/-- Decimal string of a natural number (model of JS `Number.prototype.toString`
on a nonnegative integer value). -/
def natToString (n : Nat) : String := String.mk (natDigits n)

/-- Numeric value of a most-significant-first digit list. -/
def digitsVal (cs : List Char) : Nat := cs.foldl (fun a c => a * 10 + (c.toNat - 48)) 0

/-! ### JavaScript numbers -/

/-- A JavaScript number: a finite value (modelled as a rational) or `NaN`.
Infinities do not arise in any modelled operation. -/
inductive JSNum where
  | nan : JSNum
  | val : ℚ → JSNum
deriving DecidableEq, Repr

/-- Left-pad a digit list with zeros to width `k`. -/
def padLeftZeros (k : Nat) (cs : List Char) : List Char :=
  List.replicate (k - cs.length) '0' ++ cs

/-- Model of JS `x.toFixed(6)`: fixed six-decimal rendering, rounding the
magnitude half up (ties away from zero), with the sign emitted whenever the
value is negative.  `NaN.toFixed(6)` is `"NaN"`. -/
def toFixed6 : JSNum → String
  | .nan => "NaN"
  | .val q =>
    let n : Nat := (Int.floor (|q| * 1000000 + 1 / 2)).toNat
    let sign : List Char := if q < 0 then ['-'] else []
    String.mk (sign ++ natDigits (n / 1000000) ++ '.' :: padLeftZeros 6 (natDigits (n % 1000000)))

/-- ASCII decimal digit test. -/
def isAsciiDigit (c : Char) : Bool := 48 ≤ c.toNat && c.toNat ≤ 57

/-- JS whitespace as used by `trim` / `parseFloat` (ASCII fragment; the
non-ASCII spaces JS also accepts do not occur in this subsystem). -/
def isJsSpace (c : Char) : Bool :=
  c = ' ' || c = '\t' || c = '\n' || c = '\r' || c = Char.ofNat 11 || c = Char.ofNat 12

/-- Exponent suffix value for `parseFloat` (`e`/`E`, optional sign, digits);
an exponent with no digits contributes nothing, as in JS. -/
def expVal (cs : List Char) : Int :=
  match cs with
  | c :: rest =>
    if c = 'e' ∨ c = 'E' then
      match rest with
      | '-' :: r2 =>
        if r2.takeWhile isAsciiDigit = [] then 0 else -(digitsVal (r2.takeWhile isAsciiDigit) : Int)
      | '+' :: r2 =>
        if r2.takeWhile isAsciiDigit = [] then 0 else (digitsVal (r2.takeWhile isAsciiDigit) : Int)
      | r2 =>
        if r2.takeWhile isAsciiDigit = [] then 0 else (digitsVal (r2.takeWhile isAsciiDigit) : Int)
    else 0
  | [] => 0

/-- Model of JS `parseFloat` on a character list: leading whitespace skipped,
optional sign, integer digits, optional fraction, optional exponent; `NaN`
when no digit is read; trailing junk ignored.  (The `Infinity` literal,
which never occurs in this subsystem, is not modelled.) -/
def parseFloatChars (cs0 : List Char) : JSNum :=
  let cs1 := cs0.dropWhile isJsSpace
  let sgn : ℚ := match cs1 with | '-' :: _ => -1 | _ => 1
  let cs2 : List Char := match cs1 with | '-' :: r => r | '+' :: r => r | _ => cs1
  let ip := cs2.takeWhile isAsciiDigit
  let rest1 := cs2.dropWhile isAsciiDigit
  let fp : List Char := match rest1 with | '.' :: r => r.takeWhile isAsciiDigit | _ => []
  let rest2 : List Char := match rest1 with | '.' :: r => r.dropWhile isAsciiDigit | _ => rest1
  if ip = [] ∧ fp = [] then .nan
  else .val (sgn * ((digitsVal ip : ℚ) + (digitsVal fp : ℚ) / (10 : ℚ) ^ fp.length)
    * (10 : ℚ) ^ expVal rest2)

/-- Model of JS `parseFloat` on a string. -/
def parseFloatJS (s : String) : JSNum := parseFloatChars s.toList

/-- Model of JS `String.prototype.trim` at the character level. -/
def trimChars (cs : List Char) : List Char :=
  ((cs.dropWhile isJsSpace).reverse.dropWhile isJsSpace).reverse

/-! ### Data model: the durable comments document -/

/-- A stored comment record, with the fields and names of the object literal
built by `LocalCommentsAPI.saveComment`.  `featureName` is `Option` because
the source stores `featureName || null`. -/
structure StoredComment where
  id : String
  text : String
  position_x : JSNum
  position_y : JSNum
  position_z : JSNum
  featureName : Option String
  timestamp : String
  user : String
  szene : String
deriving DecidableEq, Repr

/-- The `metadata` object of the durable document. -/
structure CommentsMetadata where
  version : String
deriving DecidableEq, Repr

/-- The durable document: `comments` is a JS object mapping scene names to
arrays of comments, modelled as an insertion-ordered association list. -/
structure CommentsData where
  comments : List (String × List StoredComment)
  metadata : CommentsMetadata
deriving DecidableEq, Repr

/-- Property read on a JS object modelled as an association list. -/
def objGet {α : Type} (m : List (String × α)) (k : String) : Option α :=
  (m.find? (fun p => p.1 = k)).map Prod.snd

/-- Property write on a JS object: overwrite in place when the key exists
(order preserved), otherwise append the new key at the end, matching JS
property insertion order. -/
def objSet {α : Type} : List (String × α) → String → α → List (String × α)
  | [], k, v => [(k, v)]
  | (k', v') :: rest, k, v =>
    if k' = k then (k, v) :: rest else (k', v') :: objSet rest k v

/-- A 3D position (`Cesium.Cartesian3`): three JS numbers. -/
def Pos3 : Type := JSNum × JSNum × JSNum

instance : DecidableEq Pos3 := by unfold Pos3; infer_instance

/-- A comment as returned by `loadComments` / `saveComment`: the stored
fields spread together with a materialized `position` object. -/
structure LoadedComment where
  fields : StoredComment
  position : Pos3
deriving DecidableEq

/-- The in-memory state of a `LocalCommentsAPI` instance: the document, the
per-scene read cache (a JS `Map`, insertion ordered), the number of
`localStorage.setItem` calls made so far (the persistence trace), and the
cache capacity (`BAWUtils.constants.CACHE_MAX_SIZE`). -/
structure Store where
  data : CommentsData
  cache : List (String × List LoadedComment)
  saveCount : Nat
  maxCacheSize : Nat
deriving DecidableEq

/-- Modelled from the spec: `BAWUtils.constants.STORAGE_VERSION` lives in the
utilities module absent from the sources; the spec only calls it a
`metadata.version` tag for forward compatibility, so the value is opaque. -/
def STORAGE_VERSION : String := "2.1"

/-- The default empty document (`LocalCommentsAPI.getDefaultData`). -/
def getDefaultData : CommentsData := ⟨[], ⟨STORAGE_VERSION⟩⟩

/-- Modelled from the spec: `BAWUtils.constants.CACHE_MAX_SIZE` lives in the
utilities module absent from the sources; the spec only says the cache has a
fixed capacity, so the value is opaque to every claim. -/
def CACHE_MAX_SIZE : Nat := 50

/-- A freshly constructed store over a given document. -/
def mkStore (d : CommentsData) : Store := ⟨d, [], 0, CACHE_MAX_SIZE⟩

/-- Model of `saveToStorage`: serialize the document to `localStorage`
(recorded as one more persistence call) and clear the whole cache. -/
def saveToStorage (st : Store) : Store :=
  { st with cache := [], saveCount := st.saveCount + 1 }

/-- Materialize one stored comment for callers (`{...comment, position}`). -/
def materialize (c : StoredComment) : LoadedComment :=
  ⟨c, (c.position_x, c.position_y, c.position_z)⟩

/-- Model of `loadComments(sceneName)`: falsy scene name yields `[]`; cache
hit returns the cached list; otherwise the list is computed from the
document, the oldest cache entry is evicted when the capacity is reached,
and the result is cached. -/
def loadComments (sceneName : String) (st : Store) : List LoadedComment × Store :=
  if sceneName = "" then ([], st)
  else
    match objGet st.cache sceneName with
    | some cs => (cs, st)
    | none =>
      let cs := ((objGet st.data.comments sceneName).getD []).map materialize
      let cache1 := if st.maxCacheSize ≤ st.cache.length then st.cache.drop 1 else st.cache
      (cs, { st with cache := cache1 ++ [(sceneName, cs)] })

/-- Modelled from the spec: `BAWUtils.utils.generateId` lives in the
utilities module absent from the sources.  The spec (design notes) calls the
ids "timestamp-derived (creation-time-based)", matching the in-source
earlier revision's `Date.now().toString()`: the id is the decimal string of
the current epoch milliseconds. -/
def generateId (nowMs : Nat) : String := natToString nowMs

/-- JS `value || null` on an optional string: the empty string is falsy. -/
def jsOrNull (s : Option String) : Option String :=
  match s with
  | some v => if v = "" then none else some v
  | none => none

/-- Model of `saveComment(sceneName, commentText, position, featureName,
userName)`: create the scene's array when absent, append the new record,
persist, and return the materialized record. -/
def saveComment (sceneName commentText : String) (position : Pos3)
    (featureName : Option String) (userName : String) (nowMs : Nat) (nowIso : String)
    (st : Store) : LoadedComment × Store :=
  let list0 := (objGet st.data.comments sceneName).getD []
  let newComment : StoredComment :=
    { id := generateId nowMs
      text := commentText
      position_x := position.1
      position_y := position.2.1
      position_z := position.2.2
      featureName := jsOrNull featureName
      timestamp := nowIso
      user := userName
      szene := sceneName }
  let d' := { st.data with comments := objSet st.data.comments sceneName (list0 ++ [newComment]) }
  (⟨newComment, position⟩, saveToStorage { st with data := d' })

/-- Errors thrown inside the API methods (all caught by `safeExecute`). -/
inductive ApiError where
  | sceneNotFound : ApiError
  | commentNotFound : ApiError
  | invalidStructure : ApiError
  | parseError : ApiError
deriving DecidableEq, Repr

/-- Replace the first comment with the given id (the object mutated through
`Array.prototype.find`). -/
def replaceFirst (l : List StoredComment) (commentId : String)
    (f : StoredComment → StoredComment) : List StoredComment :=
  match l with
  | [] => []
  | c :: rest =>
    if c.id = commentId then f c :: rest else c :: replaceFirst rest commentId f

/-- The body of `updateComment` run inside `safeExecute`: throws when the
scene or the comment is missing, otherwise rewrites `text` and `timestamp`
of the first comment with the given id. -/
def updateCommentE (commentId newText sceneName nowIso : String) (d : CommentsData) :
    Except ApiError CommentsData :=
  match objGet d.comments sceneName with
  | none => .error .sceneNotFound
  | some comments =>
    if comments.any (fun c => c.id = commentId) then
      .ok { d with comments := (objSet d.comments sceneName
        (replaceFirst comments commentId (fun c => { c with text := newText, timestamp := nowIso }))) }
    else .error .commentNotFound

/-- Model of `updateComment(commentId, newText, sceneName)`: a thrown error
is caught by `safeExecute` and surfaced as `false`; on success the document
is updated and persisted. -/
def updateComment (commentId newText sceneName nowIso : String) (st : Store) : Bool × Store :=
  match updateCommentE commentId newText sceneName nowIso st.data with
  | .error _ => (false, st)
  | .ok d' => (true, saveToStorage { st with data := d' })

/-- The body of `deleteComment` run inside `safeExecute`: throws when the
scene is missing, otherwise filters the id out (writing the filtered array
back) and reports whether the array shrank. -/
def deleteCommentE (commentId sceneName : String) (d : CommentsData) :
    Except ApiError (Bool × CommentsData) :=
  match objGet d.comments sceneName with
  | none => .error .sceneNotFound
  | some comments =>
    let filtered := comments.filter (fun c => c.id ≠ commentId)
    .ok (decide (filtered.length < comments.length),
      { d with comments := objSet d.comments sceneName filtered })

/-- Model of `deleteComment(commentId, sceneName)`: a thrown error is caught
by `safeExecute` and surfaced as `false`; the document is persisted only
when a comment was actually removed. -/
def deleteComment (commentId sceneName : String) (st : Store) : Bool × Store :=
  match deleteCommentE commentId sceneName st.data with
  | .error _ => (false, st)
  | .ok (deleted, d') =>
    (deleted, if deleted then saveToStorage { st with data := d' } else { st with data := d' })

/-- The statistics record returned by `getStats`. -/
structure Stats where
  totalComments : Nat
  scenes : Nat
  scenesWithComments : List String
deriving DecidableEq, Repr

/-- Model of `getStats()`: total comment count, scene count, scene list. -/
def getStats (st : Store) : Stats :=
  { totalComments := (st.data.comments.map (fun p => p.2.length)).sum
    scenes := st.data.comments.length
    scenesWithComments := st.data.comments.map Prod.fst }

/-- Model of `clearAllData()`. -/
def clearAllData (st : Store) : Store :=
  saveToStorage { st with data := getDefaultData, cache := [] }

/-! ### CSV codec -/

/-- Model of `_escapeCsvValue`: double every `"` character. -/
def escChars : List Char → List Char
  | [] => []
  | c :: rest => if c = '"' then '"' :: '"' :: escChars rest else c :: escChars rest

/-- Model of `_escapeCsvValue` at the string level. -/
def escapeCsvValue (s : String) : String := String.mk (escChars s.toList)

/-- Join character lists with a separator character (JS `Array.join`). -/
def joinChar (sep : Char) : List (List Char) → List Char
  | [] => []
  | [x] => x
  | x :: y :: xs => x ++ sep :: joinChar sep (y :: xs)

/-- Split a character list at a separator character (JS `String.split`);
never returns the empty list. -/
def splitChar (sep : Char) : List Char → List (List Char)
  | [] => [[]]
  | c :: rest =>
    match splitChar sep rest with
    | [] => [[c]]
    | h :: t => if c = sep then [] :: h :: t else (c :: h) :: t

/-- The fixed CSV header row. -/
def csvHeader : List Char :=
  "Szene,Kommentar,Position_X,Position_Y,Position_Z,Feature,Datum,ID,Benutzer".toList

/-- Wrap a field in double quotes. -/
def quoted (cs : List Char) : List Char := '"' :: cs ++ ['"']

/-- The nine field strings of one comment's CSV row, in source order: the
scene, text, feature and user fields are escaped and quoted, the timestamp
and id fields are quoted without escaping, and the three coordinates are
bare `toFixed(6)` renderings. -/
def csvRowFields (sceneName : String) (c : StoredComment) : List (List Char) :=
  [ quoted (escChars sceneName.toList)
  , quoted (escChars c.text.toList)
  , (toFixed6 c.position_x).toList
  , (toFixed6 c.position_y).toList
  , (toFixed6 c.position_z).toList
  , quoted (escChars ((c.featureName.getD "").toList))
  , quoted c.timestamp.toList
  , quoted c.id.toList
  , quoted (escChars c.user.toList) ]

/-- One comment's CSV data row (`row.join(',')`). -/
def csvRow (sceneName : String) (c : StoredComment) : List Char :=
  joinChar ',' (csvRowFields sceneName c)

/-- The document flattened to (scene, comment) pairs in iteration order
(`Object.entries` of `comments`, then each scene's array in order). -/
def allPairs (d : CommentsData) : List (String × StoredComment) :=
  (d.comments.map (fun p => p.2.map (fun c => (p.1, c)))).flatten

/-- Model of `exportCSV()`: the header row followed by one data row per
comment across all scenes, joined with newlines. -/
def exportCSV (st : Store) : String :=
  String.mk (joinChar '\n' (csvHeader :: (allPairs st.data).map (fun p => csvRow p.1 p.2)))

/-- Model of `_parseCSVLine`: a small state machine toggling an `inQuotes`
flag on each `"` (which is dropped from the output) and splitting on commas
only outside quotes. -/
def parseCSVAux : List Char → List Char → Bool → List (List Char)
  | [], cur, _ => [cur]
  | c :: rest, cur, inQ =>
    if c = '"' then parseCSVAux rest cur (!inQ)
    else if c = ',' ∧ inQ = false then cur :: parseCSVAux rest [] false
    else parseCSVAux rest (cur ++ [c]) inQ

/-- Model of `_parseCSVLine` at the string level. -/
def parseCSVLine (line : String) : List String :=
  (parseCSVAux line.toList [] false).map String.mk

/-- A line is blank when `line.trim()` is falsy (all whitespace). -/
def isBlankLine (cs : List Char) : Bool := cs.all isJsSpace

/-- The stored comment built by `importCSV` from one parsed row of at least
nine values (`values[5] || null` maps the empty feature field to null). -/
def csvRecordOfValues (vs : List String) (sceneName : String) : StoredComment :=
  { id := vs.getD 7 ""
    text := vs.getD 1 ""
    position_x := parseFloatJS (vs.getD 2 "")
    position_y := parseFloatJS (vs.getD 3 "")
    position_z := parseFloatJS (vs.getD 4 "")
    featureName := jsOrNull (some (vs.getD 5 ""))
    timestamp := vs.getD 6 ""
    user := vs.getD 8 ""
    szene := sceneName }

/-- Append a comment to a scene's array, creating the array when absent. -/
def pushComment (comments : List (String × List StoredComment)) (sceneName : String)
    (c : StoredComment) : List (String × List StoredComment) :=
  objSet comments sceneName (((objGet comments sceneName).getD []) ++ [c])

/-- The row loop of `importCSV`: rows parsing to fewer than nine values are
skipped without any error. -/
def importCSVRows (rows : List (List Char)) (acc : List (String × List StoredComment)) :
    List (String × List StoredComment) :=
  match rows with
  | [] => acc
  | line :: rest =>
    let values := (parseCSVAux line [] false).map String.mk
    if 9 ≤ values.length then
      importCSVRows rest (pushComment acc (values.getD 0 "") (csvRecordOfValues values (values.getD 0 "")))
    else importCSVRows rest acc

/-- Model of `importCSV(csvData)`: split into non-blank lines; fewer than
two lines throws (caught by `safeExecute`, surfaced as `false`); otherwise
`comments` is replaced by what the data rows contain (keeping `metadata`),
persisted, and the cache is cleared. -/
def importCSV (csvData : String) (st : Store) : Bool × Store :=
  let lines := (splitChar '\n' csvData.toList).filter (fun l => !(isBlankLine l))
  if lines.length < 2 then (false, st)
  else
    let newComments := importCSVRows lines.tail []
    (true, saveToStorage { st with data := { st.data with comments := newComments } })

/-! ### CommentsManager: the placement workflow -/

/-- Modelled from the spec: `BAWUtils.messages.COMMENT_NO_TEXT` lives in the
utilities module absent from the sources; only the toast kind matters to the
claims, the wording is opaque. -/
def COMMENT_NO_TEXT : String := "Bitte geben Sie einen Kommentar ein"

/-- Modelled from the spec: `BAWUtils.messages.COMMENT_SAVED` lives in the
utilities module absent from the sources. -/
def COMMENT_SAVED : String := "Kommentar gespeichert"

/-- Toast severities used by `BAWUtils.ui.showToast`. -/
inductive ToastKind where
  | success : ToastKind
  | warning : ToastKind
  | error : ToastKind
  | info : ToastKind
deriving DecidableEq, Repr

/-- One toast notification shown to the user. -/
structure Toast where
  message : String
  kind : ToastKind
deriving DecidableEq, Repr

/-- The `CommentsManager` state touched by the placement workflow: its
`LocalCommentsAPI` store, the author name, the loaded scene group (if any),
the pending pick and feature, and the materialized comments of the current
scene.  Rendering-engine and DOM collaborators are external and modelled
only through their effects on this state and the toast trace. -/
structure MgrState where
  api : Store
  userName : String
  currentGroup : Option String
  pendingPosition : Option Pos3
  pendingFeature : Option String
  currentSceneComments : List LoadedComment
deriving DecidableEq

/-- Model of `CommentsManager.addComment` (the commit step): the text box
content is passed in as `inputText`; trimmed-empty text is rejected with a
warning toast and nothing else happens; a missing pending position likewise;
a missing current group makes the save callback throw (caught, error toast);
otherwise the comment is saved through the store, appended to the current
scene list, and the pending position and feature are cleared. -/
def mgrAddComment (inputText : String) (nowMs : Nat) (nowIso : String) (m : MgrState) :
    MgrState × List Toast :=
  let commentText := String.mk (trimChars inputText.toList)
  if commentText = "" then (m, [⟨COMMENT_NO_TEXT, .warning⟩])
  else
    match m.pendingPosition with
    | none => (m, [⟨"Bitte klicken Sie zuerst auf die Karte", .warning⟩])
    | some pos =>
      match m.currentGroup with
      | none => (m, [⟨"Fehler beim Speichern des Kommentars", .error⟩])
      | some groupName =>
        let r := saveComment groupName commentText pos m.pendingFeature m.userName nowMs nowIso m.api
        let m' : MgrState :=
          { m with
            api := r.2
            currentSceneComments := m.currentSceneComments ++ [r.1]
            pendingPosition := none
            pendingFeature := none }
        (m', [⟨COMMENT_SAVED, .success⟩])

/-! ### Association-list lemmas -/

theorem objGet_nil {α : Type} (k : String) : objGet ([] : List (String × α)) k = none := rfl

theorem objGet_cons {α : Type} (k' : String) (v' : α) (rest : List (String × α)) (k : String) :
    objGet ((k', v') :: rest) k = if k' = k then some v' else objGet rest k := by
  by_cases h : k' = k <;> simp [objGet, List.find?, h]

theorem objSet_self {α : Type} (m : List (String × α)) (k : String) (v : α)
    (h : objGet m k = some v) : objSet m k v = m := by
  induction m with
  | nil => simp [objGet] at h
  | cons p rest ih =>
    obtain ⟨k', v'⟩ := p
    rw [objGet_cons] at h
    by_cases hk : k' = k
    · simp [hk] at h
      simp [objSet, hk, h]
    · simp [hk] at h
      simp [objSet, hk, ih h]

theorem objGet_objSet_self {α : Type} (m : List (String × α)) (k : String) (v : α) :
    objGet (objSet m k v) k = some v := by
  induction m with
  | nil => simp [objSet, objGet, List.find?]
  | cons p rest ih =>
    obtain ⟨k', v'⟩ := p
    by_cases hk : k' = k
    · simp [objSet, hk, objGet_cons]
    · simp [objSet, hk, objGet_cons, ih]

theorem objGet_objSet_ne {α : Type} (m : List (String × α)) (k k2 : String) (v : α)
    (h : k ≠ k2) : objGet (objSet m k v) k2 = objGet m k2 := by
  induction m with
  | nil => simp [objSet, objGet_cons, objGet_nil, h]
  | cons p rest ih =>
    obtain ⟨k', v'⟩ := p
    by_cases hk : k' = k
    · subst hk
      simp [objSet, objGet_cons, h]
    · simp [objSet, hk, objGet_cons, ih]

theorem filter_id_eq_self (l : List StoredComment) (commentId : String)
    (h : ∀ c ∈ l, c.id ≠ commentId) :
    l.filter (fun c => c.id ≠ commentId) = l := by
  induction l with
  | nil => rfl
  | cons c rest ih =>
    have hc := h c (by simp)
    simp only [List.filter, hc, ih (fun x hx => h x (by simp [hx]))]
    simp [hc]

theorem filter_id_length_lt (l : List StoredComment) (commentId : String)
    (h : ∃ c ∈ l, c.id = commentId) :
    (l.filter (fun c => c.id ≠ commentId)).length < l.length := by
  induction l with
  | nil => simp at h
  | cons c rest ih =>
    by_cases hc : c.id = commentId
    · simp [List.filter, hc]
      exact Nat.lt_succ_of_le (List.length_filter_le _ _)
    · obtain ⟨x, hx, hxid⟩ := h
      rcases List.mem_cons.mp hx with h1 | h1
      · exact absurd (h1 ▸ hxid) hc
      · simp only [List.filter]
        have : (decide (c.id ≠ commentId)) = true := by simp [hc]
        rw [this]
        simpa using ih ⟨x, h1, hxid⟩

/-! ### C1: deleteComment error handling -/

/-- C1: for every store and every `(commentId, sceneName)`: when the scene
has no entry the body throws scene-not-found (surfaced as `false`) and the
store is untouched with no persistence call; when the scene exists but no
comment has the id, the call reports `false`, leaves the store unchanged,
and fires no persistence call; when a comment with the id exists, the call
reports `true` and fires exactly one persistence call. -/
theorem deleteComment_spec (st : Store) (commentId sceneName : String) :
    (objGet st.data.comments sceneName = none →
      deleteCommentE commentId sceneName st.data = .error .sceneNotFound ∧
      deleteComment commentId sceneName st = (false, st)) ∧
    (∀ comments, objGet st.data.comments sceneName = some comments →
      (∀ c ∈ comments, c.id ≠ commentId) →
      deleteComment commentId sceneName st = (false, st)) ∧
    (∀ comments, objGet st.data.comments sceneName = some comments →
      (∃ c ∈ comments, c.id = commentId) →
      (deleteComment commentId sceneName st).1 = true ∧
      (deleteComment commentId sceneName st).2.saveCount = st.saveCount + 1) := by
  refine ⟨fun h => ?_, fun comments h hnone => ?_, fun comments h hsome => ?_⟩
  · constructor
    · simp [deleteCommentE, h]
    · simp [deleteComment, deleteCommentE, h]
  · have hfilter := filter_id_eq_self comments commentId hnone
    have hset : objSet st.data.comments sceneName comments = st.data.comments :=
      objSet_self _ _ _ h
    simp only [ne_eq, decide_not] at hfilter
    simp [deleteComment, deleteCommentE, h, hfilter, hset]
  · have hlt := filter_id_length_lt comments commentId hsome
    simp only [ne_eq, decide_not] at hlt
    simp [deleteComment, deleteCommentE, h, hlt, saveToStorage]

/-- A concrete comment used by several witnesses. -/
def wComment : StoredComment :=
  { id := "7", text := "Leak at joint", position_x := .val 10, position_y := .val 20,
    position_z := .val 5, featureName := none, timestamp := "2024-01-01T00:00:00.000Z",
    user := "Anna", szene := "Lock A" }

/-- A concrete one-comment store used by several witnesses. -/
def wStore : Store := mkStore ⟨[("Lock A", [wComment])], ⟨STORAGE_VERSION⟩⟩

/-- Witness for C1: the three branches at concrete inputs. -/
theorem deleteComment_spec_witness :
    (deleteCommentE "7" "Lock B" wStore.data = .error .sceneNotFound ∧
      deleteComment "7" "Lock B" wStore = (false, wStore)) ∧
    deleteComment "9" "Lock A" wStore = (false, wStore) ∧
    ((deleteComment "7" "Lock A" wStore).1 = true ∧
      (deleteComment "7" "Lock A" wStore).2.saveCount = wStore.saveCount + 1) := by
  refine ⟨(deleteComment_spec wStore "7" "Lock B").1 (by decide),
    (deleteComment_spec wStore "9" "Lock A").2.1 [wComment] (by decide) (by decide),
    (deleteComment_spec wStore "7" "Lock A").2.2 [wComment] (by decide) ⟨wComment, by decide, by decide⟩⟩

/-! ### C6: updateComment frame properties -/

theorem replaceFirst_append (l1 l2 : List StoredComment) (c : StoredComment)
    (commentId : String) (f : StoredComment → StoredComment)
    (hl1 : ∀ x ∈ l1, x.id ≠ commentId) (hc : c.id = commentId) :
    replaceFirst (l1 ++ c :: l2) commentId f = l1 ++ f c :: l2 := by
  induction l1 with
  | nil => simp [replaceFirst, hc]
  | cons x rest ih =>
    have hx := hl1 x (by simp)
    simp only [List.cons_append, replaceFirst, hx, if_false]
    simp [hx, ih (fun y hy => hl1 y (by simp [hy]))]

/-- C6 counterexample input: a store holding one comment created at the ISO
instant `2024-01-01T00:00:00.000Z`. -/
def c6Store : Store :=
  (saveComment "Lock A" "Leak at joint" (.val 10, .val 20, .val 5) none "Anna"
    1700000000000 "2024-01-01T00:00:00.000Z" (mkStore getDefaultData)).2

/-- C6 counterexample: the stored record has a single `timestamp` field; a
successful `updateComment` overwrites it, so the creation instant survives
in no field of the record — there is no `createdAt` that stays unchanged. -/
theorem updateComment_createdAt_cex :
    (updateComment "1700000000000" "Leak repaired" "Lock A" "2024-06-01T00:00:00.000Z" c6Store).1
      = true ∧
    (objGet (updateComment "1700000000000" "Leak repaired" "Lock A" "2024-06-01T00:00:00.000Z"
        c6Store).2.data.comments "Lock A").getD [] =
      [{ id := "1700000000000", text := "Leak repaired", position_x := .val 10,
          position_y := .val 20, position_z := .val 5, featureName := none,
          timestamp := "2024-06-01T00:00:00.000Z", user := "Anna", szene := "Lock A" }] ∧
    (∀ cc ∈ (objGet (updateComment "1700000000000" "Leak repaired" "Lock A"
        "2024-06-01T00:00:00.000Z" c6Store).2.data.comments "Lock A").getD [],
      cc.timestamp ≠ "2024-01-01T00:00:00.000Z" ∧ cc.id ≠ "2024-01-01T00:00:00.000Z" ∧
      cc.text ≠ "2024-01-01T00:00:00.000Z" ∧ cc.user ≠ "2024-01-01T00:00:00.000Z" ∧
      cc.szene ≠ "2024-01-01T00:00:00.000Z" ∧ cc.featureName ≠ some "2024-01-01T00:00:00.000Z") := by
  refine ⟨by decide, by decide, by decide⟩

/-- C6 amended: a successful `updateComment` rewrites only the matched
comment's `text` and its single `timestamp` field (which plays the role of
`updatedAt`; the creation instant is not kept anywhere); the comment's `id`,
position, feature, author and scene, every other comment of the scene, and
every other scene are unchanged, and the change is persisted. -/
theorem updateComment_frame (st : Store) (commentId newText sceneName nowIso : String)
    (l1 l2 : List StoredComment) (c : StoredComment)
    (h : objGet st.data.comments sceneName = some (l1 ++ c :: l2))
    (hl1 : ∀ x ∈ l1, x.id ≠ commentId)
    (hc : c.id = commentId) :
    updateComment commentId newText sceneName nowIso st =
      (true, saveToStorage { st with data := { st.data with comments := (objSet st.data.comments sceneName (l1 ++ ({ c with text := newText, timestamp := nowIso }) :: l2)) } }) ∧
    (∀ s2, s2 ≠ sceneName →
      objGet (updateComment commentId newText sceneName nowIso st).2.data.comments s2 =
        objGet st.data.comments s2) ∧
    objGet (updateComment commentId newText sceneName nowIso st).2.data.comments sceneName =
      some (l1 ++ ({ c with text := newText, timestamp := nowIso }) :: l2) ∧
    ({ c with text := newText, timestamp := nowIso } : StoredComment).id = c.id ∧
    ({ c with text := newText, timestamp := nowIso } : StoredComment).position_x = c.position_x ∧
    ({ c with text := newText, timestamp := nowIso } : StoredComment).position_y = c.position_y ∧
    ({ c with text := newText, timestamp := nowIso } : StoredComment).position_z = c.position_z ∧
    ({ c with text := newText, timestamp := nowIso } : StoredComment).featureName = c.featureName ∧
    ({ c with text := newText, timestamp := nowIso } : StoredComment).user = c.user ∧
    ({ c with text := newText, timestamp := nowIso } : StoredComment).szene = c.szene := by
  have hany : (l1 ++ c :: l2).any (fun x => x.id = commentId) = true := by
    rw [List.any_eq_true]
    exact ⟨c, by simp, by simp [hc]⟩
  have hrepl := replaceFirst_append l1 l2 c commentId
    (fun x => { x with text := newText, timestamp := nowIso }) hl1 hc
  have hmain : updateComment commentId newText sceneName nowIso st =
      (true, saveToStorage { st with data := { st.data with comments := (objSet st.data.comments sceneName (l1 ++ ({ c with text := newText, timestamp := nowIso }) :: l2)) } }) := by
    simp [updateComment, updateCommentE, h, hany, hrepl]
  refine ⟨hmain, fun s2 hs2 => ?_, ?_, rfl, rfl, rfl, rfl, rfl, rfl, rfl⟩
  · rw [hmain]
    exact objGet_objSet_ne _ _ _ _ (fun hcontra => hs2 hcontra.symm)
  · rw [hmain]
    exact objGet_objSet_self _ _ _

/-- The stored record of `c6Store` before the update. -/
def c6Orig : StoredComment :=
  { id := "1700000000000", text := "Leak at joint", position_x := .val 10,
    position_y := .val 20, position_z := .val 5, featureName := none,
    timestamp := "2024-01-01T00:00:00.000Z", user := "Anna", szene := "Lock A" }

/-- Witness for C6's amended theorem at the concrete counterexample store. -/
theorem updateComment_frame_witness :
    objGet (updateComment "1700000000000" "Leak repaired" "Lock A" "2024-06-01T00:00:00.000Z"
        c6Store).2.data.comments "Lock A" =
      some [{ id := "1700000000000", text := "Leak repaired", position_x := .val 10,
              position_y := .val 20, position_z := .val 5, featureName := none,
              timestamp := "2024-06-01T00:00:00.000Z", user := "Anna", szene := "Lock A" }] ∧
    objGet (updateComment "1700000000000" "Leak repaired" "Lock A" "2024-06-01T00:00:00.000Z"
        c6Store).2.data.comments "Lock B" = objGet c6Store.data.comments "Lock B" := by
  have happ := updateComment_frame c6Store "1700000000000" "Leak repaired" "Lock A"
    "2024-06-01T00:00:00.000Z" [] [] c6Orig (by decide) (by decide) (by decide)
  exact ⟨happ.2.2.1, happ.2.1 "Lock B" (by decide)⟩

/-! ### C7: addComment then getComments -/

theorem natDigitsAux_ne_nil (f n : Nat) (hf : f ≠ 0) : natDigitsAux f n ≠ [] := by
  match f with
  | 0 => exact absurd rfl hf
  | f + 1 =>
    by_cases h : n < 10
    · simp [natDigitsAux, h]
    · simp [natDigitsAux, h]

theorem natToString_ne_empty (n : Nat) : natToString n ≠ "" := by
  intro hcontra
  have : natDigits n = [] := by
    have := congrArg String.toList hcontra
    simpa [natToString] using this
  exact natDigitsAux_ne_nil (n + 1) n (by omega) this

theorem jsOrNull_eq_self (s : Option String) (h : s ≠ some "") : jsOrNull s = s := by
  match s with
  | none => rfl
  | some v =>
    have : v ≠ "" := fun hv => h (by rw [hv])
    simp [jsOrNull, this]

/-- C7: for valid inputs (non-empty scene, non-empty text, finite position,
a feature that is not the empty string, and an id fresh for the document),
`addComment` then `getComments(sceneKey)` yields the previous list of the
scene plus exactly one appended record, whose fields match the inputs and
whose id is non-empty and not present before. -/
theorem addComment_then_getComments (st : Store) (sceneName text0 : String) (pos : Pos3)
    (feat : Option String) (author : String) (nowMs : Nat) (nowIso : String)
    (hscene : sceneName ≠ "")
    (htext : text0 ≠ "")
    (hfinite : pos.1 ≠ JSNum.nan ∧ pos.2.1 ≠ JSNum.nan ∧ pos.2.2 ≠ JSNum.nan)
    (hfeat : feat ≠ some "")
    (hfresh : generateId nowMs ∉
      (((objGet st.data.comments sceneName).getD []).map StoredComment.id)) :
    (loadComments sceneName (saveComment sceneName text0 pos feat author nowMs nowIso st).2).1 =
      (((objGet st.data.comments sceneName).getD []).map materialize) ++
        [(saveComment sceneName text0 pos feat author nowMs nowIso st).1] ∧
    (saveComment sceneName text0 pos feat author nowMs nowIso st).1.fields.szene = sceneName ∧
    (saveComment sceneName text0 pos feat author nowMs nowIso st).1.fields.text = text0 ∧
    (saveComment sceneName text0 pos feat author nowMs nowIso st).1.position = pos ∧
    ((saveComment sceneName text0 pos feat author nowMs nowIso st).1.fields.position_x,
      (saveComment sceneName text0 pos feat author nowMs nowIso st).1.fields.position_y,
      (saveComment sceneName text0 pos feat author nowMs nowIso st).1.fields.position_z) = pos ∧
    (saveComment sceneName text0 pos feat author nowMs nowIso st).1.fields.featureName = feat ∧
    (saveComment sceneName text0 pos feat author nowMs nowIso st).1.fields.user = author ∧
    (saveComment sceneName text0 pos feat author nowMs nowIso st).1.fields.id ≠ "" ∧
    (saveComment sceneName text0 pos feat author nowMs nowIso st).1.fields.id ∉
      (((objGet st.data.comments sceneName).getD []).map StoredComment.id) := by
  refine ⟨?_, rfl, rfl, rfl, rfl, jsOrNull_eq_self feat hfeat, rfl,
    natToString_ne_empty nowMs, hfresh⟩
  simp only [saveComment, saveToStorage, loadComments, hscene, if_false]
  simp [objGet_nil, objGet_objSet_self, materialize]

/-- Witness for C7 at a concrete store and concrete inputs. -/
theorem addComment_then_getComments_witness :
    (loadComments "Lock A" (saveComment "Lock A" "Leak at joint" (.val 10, .val 20, .val 5)
        none "Anna" 1700000000000 "2024-01-01T00:00:00.000Z" (mkStore getDefaultData)).2).1 =
      [(saveComment "Lock A" "Leak at joint" (.val 10, .val 20, .val 5)
        none "Anna" 1700000000000 "2024-01-01T00:00:00.000Z" (mkStore getDefaultData)).1] ∧
    (saveComment "Lock A" "Leak at joint" (.val 10, .val 20, .val 5)
      none "Anna" 1700000000000 "2024-01-01T00:00:00.000Z" (mkStore getDefaultData)).1.fields.id ≠ "" := by
  have happ := addComment_then_getComments (mkStore getDefaultData) "Lock A" "Leak at joint"
    (.val 10, .val 20, .val 5) none "Anna" 1700000000000 "2024-01-01T00:00:00.000Z"
    (by decide) (by decide) ⟨by decide, by decide, by decide⟩ (by decide) (by decide)
  refine ⟨?_, happ.2.2.2.2.2.2.2.1⟩
  have h1 := happ.1
  simpa using h1

/-! ### C8: commit with empty text from PositionChosen -/

/-- C8: calling the commit step with trimmed-empty text while a pending
position is chosen is rejected with a warning toast: the manager state is
unchanged (the pending position and feature are kept) and the store is not
touched — no save, no persistence call. -/
theorem commit_empty_text (m : MgrState) (inputText : String) (nowMs : Nat) (nowIso : String)
    (p : Pos3)
    (hpos : m.pendingPosition = some p)
    (hempty : trimChars inputText.toList = []) :
    mgrAddComment inputText nowMs nowIso m = (m, [⟨COMMENT_NO_TEXT, .warning⟩]) ∧
    (mgrAddComment inputText nowMs nowIso m).1.pendingPosition = some p ∧
    (mgrAddComment inputText nowMs nowIso m).1.pendingFeature = m.pendingFeature ∧
    (mgrAddComment inputText nowMs nowIso m).1.api = m.api ∧
    (mgrAddComment inputText nowMs nowIso m).1.api.saveCount = m.api.saveCount := by
  have hmain : mgrAddComment inputText nowMs nowIso m = (m, [⟨COMMENT_NO_TEXT, .warning⟩]) := by
    have h2 : trimChars inputText.data = [] := hempty
    have hmk : String.mk (trimChars inputText.data) = "" := by rw [h2]
    simp [mgrAddComment, hmk]
  exact ⟨hmain, by rw [hmain]; exact hpos, by rw [hmain], by rw [hmain], by rw [hmain]⟩

/-- A concrete manager state in `PositionChosen` used by the C8 witness. -/
def wMgr : MgrState :=
  { api := mkStore getDefaultData, userName := "Anna", currentGroup := some "Lock A",
    pendingPosition := some (.val 10, .val 20, .val 5), pendingFeature := some "Gate",
    currentSceneComments := [] }

/-- Witness for C8: committing the empty text at the concrete state. -/
theorem commit_empty_text_witness :
    mgrAddComment "" 1700000000000 "2024-01-01T00:00:00.000Z" wMgr =
      (wMgr, [⟨COMMENT_NO_TEXT, .warning⟩]) ∧
    (mgrAddComment "" 1700000000000 "2024-01-01T00:00:00.000Z" wMgr).1.api.saveCount =
      wMgr.api.saveCount := by
  have happ := commit_empty_text wMgr "" 1700000000000 "2024-01-01T00:00:00.000Z"
    (.val 10, .val 20, .val 5) (by decide) (by decide)
  exact ⟨happ.1, happ.2.2.2.2⟩

/-! ### C5: id uniqueness across the document -/

theorem natDigitsAux_congr (n : Nat) : ∀ f1 f2 : Nat, n < f1 → n < f2 →
    natDigitsAux f1 n = natDigitsAux f2 n := by
  induction n using Nat.strongRecOn with
  | _ n ih =>
    intro f1 f2 h1 h2
    match f1, f2 with
    | g1 + 1, g2 + 1 =>
      by_cases h : n < 10
      · simp [natDigitsAux, h]
      · have hdiv : n / 10 < n := Nat.div_lt_self (by omega) (by omega)
        simp only [natDigitsAux, h, if_false]
        rw [ih (n / 10) hdiv g1 g2 (by omega) (by omega)]

theorem decDigit_toNat (k : Nat) (h : k < 10) : (decDigit k).toNat = 48 + k := by
  interval_cases k <;> rfl

theorem digitsVal_append_one (xs : List Char) (c : Char) :
    digitsVal (xs ++ [c]) = digitsVal xs * 10 + (c.toNat - 48) := by
  simp [digitsVal, List.foldl_append]

theorem digitsVal_natDigits (n : Nat) : digitsVal (natDigits n) = n := by
  induction n using Nat.strongRecOn with
  | _ n ih =>
    by_cases h : n < 10
    · simp only [natDigits, natDigitsAux, h, if_true]
      simp [digitsVal, decDigit_toNat n h]
    · have hdiv : n / 10 < n := Nat.div_lt_self (by omega) (by omega)
      have hstep : natDigits n = natDigits (n / 10) ++ [decDigit (n % 10)] := by
        show natDigitsAux (n + 1) n = _
        simp only [natDigitsAux, h, if_false]
        rw [natDigitsAux_congr (n / 10) n (n / 10 + 1) (by omega) (by omega)]
        rfl
      rw [hstep, digitsVal_append_one, ih (n / 10) hdiv,
        decDigit_toNat (n % 10) (Nat.mod_lt n (by omega))]
      omega

theorem natToString_injective : Function.Injective natToString := by
  intro a b h
  have hdata : natDigits a = natDigits b := congrArg String.data h
  have := congrArg digitsVal hdata
  rwa [digitsVal_natDigits, digitsVal_natDigits] at this

theorem generateId_injective : Function.Injective generateId := natToString_injective

/-- The ids of every comment across the whole document, in iteration
order. -/
def idsOf (d : CommentsData) : List String := (allPairs d).map (fun p => p.2.id)

/-- Pairs of a raw comments map (the list underlying `allPairs`). -/
def pairsOfMap (m : List (String × List StoredComment)) : List (String × StoredComment) :=
  (m.map (fun p => p.2.map (fun c => (p.1, c)))).flatten

theorem allPairs_eq_pairsOfMap (d : CommentsData) : allPairs d = pairsOfMap d.comments := rfl

theorem pairsOfMap_push (m : List (String × List StoredComment)) (k : String)
    (c : StoredComment) :
    List.Perm (pairsOfMap (objSet m k (((objGet m k).getD []) ++ [c]))) (pairsOfMap m ++ [(k, c)]) := by
  induction m with
  | nil =>
    simp [objGet, objSet, pairsOfMap]
  | cons p rest ih =>
    obtain ⟨k', l⟩ := p
    by_cases hk : k' = k
    · subst hk
      rw [objGet_cons, if_pos rfl, Option.getD_some]
      simp only [objSet, eq_self_iff_true, if_true]
      simp only [pairsOfMap, List.map_cons, List.flatten_cons, List.map_append]
      rw [List.append_assoc, List.append_assoc]
      refine List.Perm.append_left _ ?_
      exact List.perm_append_comm
    · rw [objGet_cons, if_neg hk]
      simp only [objSet, if_neg hk]
      simp only [pairsOfMap, List.map_cons, List.flatten_cons]
      rw [List.append_assoc]
      exact List.Perm.append_left _ ih

theorem idsOf_saveComment (st : Store) (sceneName text0 : String) (pos : Pos3)
    (feat : Option String) (author : String) (nowMs : Nat) (nowIso : String) :
    List.Perm (idsOf (saveComment sceneName text0 pos feat author nowMs nowIso st).2.data)
      (idsOf st.data ++ [generateId nowMs]) := by
  simp only [idsOf, allPairs_eq_pairsOfMap, saveComment, saveToStorage]
  have hperm := pairsOfMap_push st.data.comments sceneName
    { id := generateId nowMs, text := text0, position_x := pos.1, position_y := pos.2.1,
      position_z := pos.2.2, featureName := jsOrNull feat, timestamp := nowIso,
      user := author, szene := sceneName }
  have := hperm.map (fun p : String × StoredComment => p.2.id)
  simpa using this

/-- One `addComment` call of a reachability trace. -/
structure AddCall where
  scene : String
  text : String
  pos : Pos3
  feat : Option String
  author : String
  ms : Nat
  iso : String

/-- Run a trace of `addComment` calls against a store. -/
def runAdds (calls : List AddCall) (st : Store) : Store :=
  calls.foldl (fun s a => (saveComment a.scene a.text a.pos a.feat a.author a.ms a.iso s).2) st

theorem idsOf_runAdds (calls : List AddCall) (st : Store) :
    List.Perm (idsOf (runAdds calls st).data)
      (idsOf st.data ++ calls.map (fun a => generateId a.ms)) := by
  induction calls generalizing st with
  | nil => simp [runAdds]
  | cons a rest ih =>
    have hstep := idsOf_saveComment st a.scene a.text a.pos a.feat a.author a.ms a.iso
    have htail := ih ((saveComment a.scene a.text a.pos a.feat a.author a.ms a.iso st).2)
    have : runAdds (a :: rest) st =
        runAdds rest ((saveComment a.scene a.text a.pos a.feat a.author a.ms a.iso st).2) := rfl
    rw [this]
    refine htail.trans ?_
    have := hstep.append_right (rest.map (fun a => generateId a.ms))
    refine this.trans ?_
    rw [List.append_assoc]
    simp

/-- C5 counterexample inputs: two `addComment` calls in different scenes at
the same wall-clock millisecond. -/
def c5Store : Store :=
  (saveComment "B" "second" (.val 1, .val 2, .val 3) none "Anna" 1000 "iso"
    (saveComment "A" "first" (.val 1, .val 2, .val 3) none "Anna" 1000 "iso"
      (mkStore getDefaultData)).2).2

/-- C5 counterexample: two distinct comments (in different scenes) created
at the same millisecond receive the same timestamp-derived id, so the ids
are not unique across the document. -/
theorem addComment_id_collision_cex :
    idsOf c5Store.data = ["1000", "1000"] ∧
    ¬ (idsOf c5Store.data).Nodup ∧
    (allPairs c5Store.data).map Prod.fst = ["A", "B"] := by
  refine ⟨by decide, by decide, by decide⟩

/-- C5 amended: in every document state reachable through `addComment`
calls whose creation milliseconds are pairwise distinct, comment ids are
unique across the whole document (the id is the decimal creation
millisecond, so two calls in the same millisecond collide). -/
theorem addComment_ids_unique (calls : List AddCall)
    (hdist : (calls.map AddCall.ms).Nodup) :
    (idsOf (runAdds calls (mkStore getDefaultData)).data).Nodup := by
  have hperm := idsOf_runAdds calls (mkStore getDefaultData)
  have hbase : idsOf (mkStore getDefaultData).data = [] := rfl
  rw [hbase, List.nil_append] at hperm
  have hcomp : calls.map (fun a => generateId a.ms) = (calls.map AddCall.ms).map generateId := by
    rw [List.map_map]
    rfl
  rw [hcomp] at hperm
  exact hperm.nodup_iff.mpr (hdist.map generateId_injective)

/-- Witness for C5's amended theorem at a concrete two-call trace. -/
theorem addComment_ids_unique_witness :
    (([⟨"A", "first", (.val 1, .val 2, .val 3), none, "Anna", 1000, "iso"⟩,
        ⟨"B", "second", (.val 1, .val 2, .val 3), none, "Anna", 1001, "iso"⟩] :
      List AddCall).map AddCall.ms).Nodup ∧
    (idsOf (runAdds [⟨"A", "first", (.val 1, .val 2, .val 3), none, "Anna", 1000, "iso"⟩,
        ⟨"B", "second", (.val 1, .val 2, .val 3), none, "Anna", 1001, "iso"⟩]
      (mkStore getDefaultData)).data).Nodup := by
  exact ⟨by decide, addComment_ids_unique _ (by decide)⟩

/-! ### C10: importCSV silently skips short rows -/

/-- Total number of comments across a raw comments map. -/
def totalOfMap (m : List (String × List StoredComment)) : Nat :=
  (m.map (fun p => p.2.length)).sum

theorem totalOfMap_pushComment (m : List (String × List StoredComment)) (k : String)
    (c : StoredComment) : totalOfMap (pushComment m k c) = totalOfMap m + 1 := by
  induction m with
  | nil => simp [pushComment, objGet, objSet, totalOfMap]
  | cons p rest ih =>
    obtain ⟨k', l⟩ := p
    by_cases hk : k' = k
    · subst hk
      simp only [pushComment, objGet_cons, if_pos rfl, Option.getD_some, objSet,
        eq_self_iff_true, if_true]
      simp [totalOfMap]
      omega
    · simp only [pushComment, objGet_cons, if_neg hk, objSet, if_neg hk] at *
      simp only [totalOfMap, List.map_cons, List.sum_cons]
      simp only [totalOfMap] at ih
      rw [ih]
      omega

theorem importCSVRows_total (rows : List (List Char)) (acc : List (String × List StoredComment)) :
    totalOfMap (importCSVRows rows acc) =
      totalOfMap acc + (rows.filter (fun l => 9 ≤ (parseCSVAux l [] false).length)).length := by
  induction rows generalizing acc with
  | nil => simp [importCSVRows]
  | cons line rest ih =>
    simp only [importCSVRows, List.length_map, List.filter_cons]
    by_cases h : 9 ≤ (parseCSVAux line [] false).length
    · rw [if_pos h, ih, totalOfMap_pushComment]
      simp [h]
      omega
    · rw [if_neg h, ih]
      simp [h]

/-- C10: when the input has a header plus at least one further non-blank
line, `importCSV` reports overall success, keeps the metadata, replaces the
comments with exactly the records built from the rows that parse to at
least nine fields, and raises no error for the dropped rows — so the total
comment count equals the number of rows with at least nine parsed fields,
which may be fewer than the number of data rows. -/
theorem importCSV_skips (csvData : String) (st : Store)
    (h2 : 2 ≤ ((splitChar '\n' csvData.toList).filter (fun l => !(isBlankLine l))).length) :
    (importCSV csvData st).1 = true ∧
    (importCSV csvData st).2.data.metadata = st.data.metadata ∧
    (importCSV csvData st).2.data.comments =
      importCSVRows (((splitChar '\n' csvData.toList).filter (fun l => !(isBlankLine l))).tail) [] ∧
    (getStats (importCSV csvData st).2).totalComments =
      (((((splitChar '\n' csvData.toList).filter (fun l => !(isBlankLine l))).tail).filter
        (fun l => 9 ≤ (parseCSVAux l [] false).length)).length) ∧
    (importCSV csvData st).2.saveCount = st.saveCount + 1 ∧
    (importCSV csvData st).2.cache = [] := by
  have hnot : ¬ (((splitChar '\n' csvData.toList).filter (fun l => !(isBlankLine l))).length < 2) := by
    omega
  have hnot2 : ¬ (((splitChar '\n' csvData.data).filter (fun l => !(isBlankLine l))).length < 2) :=
    hnot
  have hmain : importCSV csvData st =
      (true, saveToStorage { st with data := { st.data with comments := (importCSVRows (((splitChar '\n' csvData.toList).filter (fun l => !(isBlankLine l))).tail) []) } }) := by
    simp [importCSV, hnot2]
  have htot := importCSVRows_total
    (((splitChar '\n' csvData.toList).filter (fun l => !(isBlankLine l))).tail) []
  refine ⟨by rw [hmain], by rw [hmain]; rfl, by rw [hmain]; rfl, ?_, by rw [hmain]; rfl,
    by rw [hmain]; rfl⟩
  rw [hmain]
  show totalOfMap (importCSVRows (((splitChar '\n' csvData.toList).filter
    (fun l => !(isBlankLine l))).tail) []) = _
  rw [htot]
  simp [totalOfMap]

/-- Witness for C10: a header, one malformed two-field row, one nine-field
row; the import succeeds with exactly one comment. -/
theorem importCSV_skips_witness :
    (2 ≤ ((splitChar '\n' ("h\nx,y\na,b,c,d,e,f,g,h,i" : String).toList).filter
      (fun l => !(isBlankLine l))).length) ∧
    (importCSV "h\nx,y\na,b,c,d,e,f,g,h,i" (mkStore getDefaultData)).1 = true ∧
    (getStats (importCSV "h\nx,y\na,b,c,d,e,f,g,h,i" (mkStore getDefaultData)).2).totalComments = 1 := by
  have happ := importCSV_skips "h\nx,y\na,b,c,d,e,f,g,h,i" (mkStore getDefaultData) (by decide)
  exact ⟨by decide, happ.1, by rw [happ.2.2.2.1]; decide⟩

/-! ### C2: CSV round trip with comma and quote in the text -/

/-- The C2 comment, whose text contains both a comma and quotes. -/
def c2Comment : StoredComment :=
  { id := "1700000000000", text := "He said, \"hi\"", position_x := .val 10,
    position_y := .val 20, position_z := .val 5, featureName := none,
    timestamp := "2024-01-01T00:00:00.000Z", user := "Anna", szene := "Lock A" }

/-- A store holding exactly the C2 comment. -/
def c2Store : Store := mkStore ⟨[("Lock A", [c2Comment])], ⟨STORAGE_VERSION⟩⟩

set_option maxRecDepth 100000 in
/-- C2 counterexample: the CSV round trip of the comment with text
`He said, "hi"` succeeds but does not return the identical text — the
parser drops every quote character, yielding `He said, hi`. -/
theorem csv_roundtrip_cex :
    (importCSV (exportCSV c2Store) (mkStore getDefaultData)).1 = true ∧
    (importCSV (exportCSV c2Store) (mkStore getDefaultData)).2.data.comments =
      [("Lock A", [{ c2Comment with text := "He said, hi" }])] ∧
    ("He said, hi" : String) ≠ c2Comment.text := by
  refine ⟨by with_unfolding_all decide, by with_unfolding_all decide, by decide⟩

/-- Strip every double-quote character from a string. -/
def stripQuotes (s : String) : String := String.mk (s.toList.filter (fun c => c ≠ '"'))

set_option maxRecDepth 100000 in
/-- C2 amended: the round trip of the comment with text `He said, "hi"`
returns the comment with identical id and identical position coordinates,
and with text equal to the original with the quote characters removed (the
comma survives; the quotes do not). -/
theorem csv_roundtrip_amended :
    (importCSV (exportCSV c2Store) (mkStore getDefaultData)).1 = true ∧
    (importCSV (exportCSV c2Store) (mkStore getDefaultData)).2.data.comments =
      [("Lock A", [{ c2Comment with text := stripQuotes c2Comment.text }])] ∧
    stripQuotes c2Comment.text = "He said, hi" ∧
    ({ c2Comment with text := stripQuotes c2Comment.text }).id = c2Comment.id ∧
    ({ c2Comment with text := stripQuotes c2Comment.text }).position_x = c2Comment.position_x ∧
    ({ c2Comment with text := stripQuotes c2Comment.text }).position_y = c2Comment.position_y ∧
    ({ c2Comment with text := stripQuotes c2Comment.text }).position_z = c2Comment.position_z := by
  refine ⟨by with_unfolding_all decide, by with_unfolding_all decide, by decide, rfl, rfl, rfl, rfl⟩

/-! ### C3: exportCSV row format -/

theorem splitChar_ne_nil (sep : Char) (cs : List Char) : splitChar sep cs ≠ [] := by
  match cs with
  | [] => simp [splitChar]
  | c :: rest =>
    simp only [splitChar]
    match splitChar sep rest with
    | [] => simp
    | h :: t =>
      by_cases hc : c = sep <;> simp [hc]

theorem splitChar_no_sep (sep : Char) (x : List Char) (h : sep ∉ x) :
    splitChar sep x = [x] := by
  induction x with
  | nil => rfl
  | cons c rest ih =>
    have hc : c ≠ sep := fun hcontra => h (by simp [hcontra])
    have hrest := ih (fun hcontra => h (by simp [hcontra]))
    simp only [splitChar, hrest]
    simp [hc]

theorem splitChar_append_sep (sep : Char) (x cs : List Char) (h : sep ∉ x) :
    splitChar sep (x ++ sep :: cs) = x :: splitChar sep cs := by
  induction x with
  | nil =>
    simp only [List.nil_append, splitChar]
    match hrec : splitChar sep cs with
    | [] => exact absurd hrec (splitChar_ne_nil sep cs)
    | h2 :: t => simp
  | cons c rest ih =>
    have hc : c ≠ sep := fun hcontra => h (by simp [hcontra])
    have hrest := ih (fun hcontra => h (by simp [hcontra]))
    simp only [List.cons_append, splitChar]
    rw [show (rest.append (sep :: cs)) = rest ++ sep :: cs from rfl, hrest]
    simp [hc]

theorem splitChar_joinChar (sep : Char) (rows : List (List Char)) (hne : rows ≠ [])
    (hnosep : ∀ r ∈ rows, sep ∉ r) : splitChar sep (joinChar sep rows) = rows := by
  induction rows with
  | nil => exact absurd rfl hne
  | cons x rest ih =>
    match rest with
    | [] =>
      exact splitChar_no_sep sep x (hnosep x (by simp))
    | y :: xs =>
      have hx : sep ∉ x := hnosep x (by simp)
      show splitChar sep (x ++ sep :: joinChar sep (y :: xs)) = _
      rw [splitChar_append_sep sep x _ hx,
        ih (by simp) (fun r hr => hnosep r (by simp [hr]))]

theorem joinChar_mem (sep : Char) (rows : List (List Char)) (ch : Char)
    (h : ch ∈ joinChar sep rows) : ch = sep ∨ ∃ r ∈ rows, ch ∈ r := by
  induction rows with
  | nil => simp [joinChar] at h
  | cons x rest ih =>
    match rest with
    | [] => exact Or.inr ⟨x, by simp, h⟩
    | y :: xs =>
      rw [show joinChar sep (x :: y :: xs) = x ++ sep :: joinChar sep (y :: xs) from rfl] at h
      rcases List.mem_append.mp h with h1 | h1
      · exact Or.inr ⟨x, by simp, h1⟩
      · rcases List.mem_cons.mp h1 with h2 | h2
        · exact Or.inl h2
        · rcases ih h2 with h3 | ⟨r, hr, hcr⟩
          · exact Or.inl h3
          · exact Or.inr ⟨r, by simp [hr], hcr⟩

theorem escChars_mem (s : List Char) (ch : Char) (h : ch ∈ escChars s) : ch ∈ s := by
  induction s with
  | nil => simp [escChars] at h
  | cons c rest ih =>
    by_cases hc : c = '"'
    · rw [escChars, if_pos hc] at h
      rcases List.mem_cons.mp h with h1 | h1
      · simp [h1, hc]
      · rcases List.mem_cons.mp h1 with h2 | h2
        · simp [h2, hc]
        · simp [ih h2]
    · rw [escChars, if_neg hc] at h
      rcases List.mem_cons.mp h with h1 | h1
      · simp [h1]
      · simp [ih h1]

theorem quoted_mem (t : List Char) (ch : Char) (h : ch ∈ quoted t) :
    ch = '"' ∨ ch ∈ t := by
  rcases List.mem_cons.mp h with h1 | h1
  · exact Or.inl h1
  · rcases List.mem_append.mp h1 with h2 | h2
    · exact Or.inr h2
    · simp at h2
      exact Or.inl h2

theorem natDigitsAux_digit (f n : Nat) (ch : Char) (h : ch ∈ natDigitsAux f n) :
    isAsciiDigit ch = true := by
  induction f generalizing n with
  | zero => simp [natDigitsAux] at h
  | succ f ih =>
    by_cases hn : n < 10
    · rw [natDigitsAux, if_pos hn] at h
      simp at h
      subst h
      rw [isAsciiDigit]
      rw [decDigit_toNat n hn]
      simp
      omega
    · rw [natDigitsAux, if_neg hn] at h
      rcases List.mem_append.mp h with h1 | h1
      · exact ih _ h1
      · simp at h1
        subst h1
        rw [isAsciiDigit]
        rw [decDigit_toNat (n % 10) (Nat.mod_lt n (by omega))]
        simp
        omega

theorem toFixed6_mem (x : JSNum) (ch : Char) (h : ch ∈ (toFixed6 x).toList) :
    ch = '-' ∨ ch = '.' ∨ ch = 'N' ∨ ch = 'a' ∨ isAsciiDigit ch = true := by
  match x with
  | .nan =>
    simp [toFixed6] at h
    rcases h with h | h | h <;> simp [h]
  | .val q =>
    simp only [toFixed6, String.toList] at h
    rcases List.mem_append.mp h with h1 | h1
    · rcases List.mem_append.mp h1 with h2 | h2
      · by_cases hq : q < 0
        · rw [if_pos hq] at h2
          simp at h2
          simp [h2]
        · rw [if_neg hq] at h2
          simp at h2
      · exact Or.inr (Or.inr (Or.inr (Or.inr (natDigitsAux_digit _ _ ch h2))))
    · rcases List.mem_cons.mp h1 with h3 | h3
      · simp [h3]
      · rcases List.mem_append.mp h3 with h4 | h4
        · have := List.eq_of_mem_replicate h4
          subst this
          exact Or.inr (Or.inr (Or.inr (Or.inr (by decide))))
        · exact Or.inr (Or.inr (Or.inr (Or.inr (natDigitsAux_digit _ _ ch h4))))

theorem toFixed6_not_bad (x : JSNum) :
    '"' ∉ (toFixed6 x).toList ∧ ',' ∉ (toFixed6 x).toList ∧ '\n' ∉ (toFixed6 x).toList := by
  refine ⟨fun h => ?_, fun h => ?_, fun h => ?_⟩ <;>
    rcases toFixed6_mem x _ h with h1 | h1 | h1 | h1 | h1 <;> simp_all [isAsciiDigit]

theorem parseCSVAux_quote (zs cur : List Char) (b : Bool) :
    parseCSVAux ('"' :: zs) cur b = parseCSVAux zs cur (!b) := by
  rw [parseCSVAux]
  simp

theorem parseCSVAux_char (ch : Char) (zs cur : List Char) (b : Bool) (h1 : ch ≠ '"')
    (h2 : ¬ (ch = ',' ∧ b = false)) :
    parseCSVAux (ch :: zs) cur b = parseCSVAux zs (cur ++ [ch]) b := by
  rw [parseCSVAux]
  simp [h1, h2]

theorem parseCSVAux_esc (s : List Char) (ys cur : List Char) :
    parseCSVAux (escChars s ++ ys) cur true =
      parseCSVAux ys (cur ++ s.filter (fun c => c ≠ '"')) true := by
  induction s generalizing cur with
  | nil => simp [escChars]
  | cons c rest ih =>
    by_cases hc : c = '"'
    · subst hc
      show parseCSVAux ('"' :: '"' :: (escChars rest ++ ys)) cur true = _
      rw [parseCSVAux_quote, Bool.not_true, parseCSVAux_quote, Bool.not_false]
      rw [ih cur]
      simp [List.filter_cons]
    · rw [show escChars (c :: rest) = c :: escChars rest from by rw [escChars, if_neg hc]]
      show parseCSVAux (c :: (escChars rest ++ ys)) cur true = _
      rw [parseCSVAux_char c _ _ _ hc (by simp), ih (cur ++ [c])]
      simp [List.filter_cons, hc]

theorem parseCSVAux_noquote (t : List Char) (ys cur : List Char) (h : '"' ∉ t) :
    parseCSVAux (t ++ ys) cur true = parseCSVAux ys (cur ++ t) true := by
  induction t generalizing cur with
  | nil => simp
  | cons c rest ih =>
    have hc : c ≠ '"' := fun hcontra => h (by simp [hcontra])
    show parseCSVAux (c :: (rest ++ ys)) cur true = _
    rw [parseCSVAux_char c _ _ _ hc (by simp),
      ih (cur ++ [c]) (fun hcontra => h (by simp [hcontra]))]
    simp

theorem parseCSVAux_quotedEsc (s : List Char) (ys cur : List Char) :
    parseCSVAux (quoted (escChars s) ++ ys) cur false =
      parseCSVAux ys (cur ++ s.filter (fun c => c ≠ '"')) false := by
  show parseCSVAux ('"' :: ((escChars s ++ ['"']) ++ ys)) cur false = _
  rw [parseCSVAux_quote, Bool.not_false, List.append_assoc, parseCSVAux_esc]
  rw [show (['"'] : List Char) ++ ys = '"' :: ys from rfl]
  rw [parseCSVAux_quote, Bool.not_true]

theorem parseCSVAux_quotedRaw (t : List Char) (ys cur : List Char) (h : '"' ∉ t) :
    parseCSVAux (quoted t ++ ys) cur false = parseCSVAux ys (cur ++ t) false := by
  show parseCSVAux ('"' :: ((t ++ ['"']) ++ ys)) cur false = _
  rw [parseCSVAux_quote, Bool.not_false, List.append_assoc, parseCSVAux_noquote t _ cur h]
  rw [show (['"'] : List Char) ++ ys = '"' :: ys from rfl]
  rw [parseCSVAux_quote, Bool.not_true]

theorem parseCSVAux_bare (t : List Char) (ys cur : List Char) (hq : '"' ∉ t) (hc : ',' ∉ t) :
    parseCSVAux (t ++ ys) cur false = parseCSVAux ys (cur ++ t) false := by
  induction t generalizing cur with
  | nil => simp
  | cons c rest ih =>
    have h1 : c ≠ '"' := fun hcontra => hq (by simp [hcontra])
    have h2 : ¬ (c = ',' ∧ (false : Bool) = false) := by
      intro hcontra
      exact hc (by simp [hcontra.1])
    show parseCSVAux (c :: (rest ++ ys)) cur false = _
    rw [parseCSVAux_char c _ _ _ h1 h2,
      ih (cur ++ [c]) (fun hx => hq (by simp [hx])) (fun hx => hc (by simp [hx]))]
    simp

theorem parseCSVAux_comma (ys cur : List Char) :
    parseCSVAux (',' :: ys) cur false = cur :: parseCSVAux ys [] false := by
  rw [parseCSVAux]
  simp

/-- Quote-aware parsing of one exported row recovers its nine values: the
escaped fields come back with their quote characters removed, the raw-quoted
fields (timestamp, id) come back verbatim, and the bare coordinate fields
come back verbatim. -/
theorem parseCSVAux_csvRow (sceneName : String) (c : StoredComment)
    (htsq : '"' ∉ c.timestamp.toList) (htsc : ',' ∉ c.timestamp.toList)
    (hidq : '"' ∉ c.id.toList) (hidc : ',' ∉ c.id.toList) :
    parseCSVAux (csvRow sceneName c) [] false =
      [ sceneName.toList.filter (fun ch => ch ≠ '"')
      , c.text.toList.filter (fun ch => ch ≠ '"')
      , (toFixed6 c.position_x).toList
      , (toFixed6 c.position_y).toList
      , (toFixed6 c.position_z).toList
      , ((c.featureName.getD "").toList).filter (fun ch => ch ≠ '"')
      , c.timestamp.toList
      , c.id.toList
      , c.user.toList.filter (fun ch => ch ≠ '"') ] := by
  obtain ⟨hxq, hxc, _⟩ := toFixed6_not_bad c.position_x
  obtain ⟨hyq, hyc, _⟩ := toFixed6_not_bad c.position_y
  obtain ⟨hzq, hzc, _⟩ := toFixed6_not_bad c.position_z
  show parseCSVAux
    (quoted (escChars sceneName.toList) ++ ',' ::
      (quoted (escChars c.text.toList) ++ ',' ::
        ((toFixed6 c.position_x).toList ++ ',' ::
          ((toFixed6 c.position_y).toList ++ ',' ::
            ((toFixed6 c.position_z).toList ++ ',' ::
              (quoted (escChars ((c.featureName.getD "").toList)) ++ ',' ::
                (quoted c.timestamp.toList ++ ',' ::
                  (quoted c.id.toList ++ ',' ::
                    quoted (escChars c.user.toList))))))))) [] false = _
  rw [parseCSVAux_quotedEsc, parseCSVAux_comma]
  rw [parseCSVAux_quotedEsc, parseCSVAux_comma]
  rw [parseCSVAux_bare _ _ _ hxq hxc, parseCSVAux_comma]
  rw [parseCSVAux_bare _ _ _ hyq hyc, parseCSVAux_comma]
  rw [parseCSVAux_bare _ _ _ hzq hzc, parseCSVAux_comma]
  rw [parseCSVAux_quotedEsc, parseCSVAux_comma]
  rw [parseCSVAux_quotedRaw _ _ _ htsq, parseCSVAux_comma]
  rw [parseCSVAux_quotedRaw _ _ _ hidq, parseCSVAux_comma]
  have hlast : ∀ cur, parseCSVAux (quoted (escChars c.user.toList)) cur false =
      [cur ++ c.user.toList.filter (fun ch => ch ≠ '"')] := by
    intro cur
    have := parseCSVAux_quotedEsc c.user.toList [] cur
    rw [List.append_nil] at this
    rw [this]
    rfl
  rw [hlast]
  simp

/-- Conditions on one (scene, comment) pair under which its CSV row is
recoverable: no field contains a newline, and the two unescaped fields
(timestamp, id) contain no quote and no comma. -/
def csvSafePair (p : String × StoredComment) : Prop :=
  '\n' ∉ p.1.toList ∧ '\n' ∉ p.2.text.toList ∧ '\n' ∉ ((p.2.featureName.getD "").toList) ∧
  '\n' ∉ p.2.user.toList ∧
  '"' ∉ p.2.timestamp.toList ∧ ',' ∉ p.2.timestamp.toList ∧ '\n' ∉ p.2.timestamp.toList ∧
  '"' ∉ p.2.id.toList ∧ ',' ∉ p.2.id.toList ∧ '\n' ∉ p.2.id.toList

instance (p : String × StoredComment) : Decidable (csvSafePair p) := by
  unfold csvSafePair
  infer_instance

theorem no_nl_quoted (t : List Char) (h : '\n' ∉ t) : '\n' ∉ quoted t := by
  intro hin
  rcases quoted_mem t '\n' hin with h1 | h1
  · exact absurd h1 (by decide)
  · exact h h1

theorem no_nl_quotedEsc (t : List Char) (h : '\n' ∉ t) : '\n' ∉ quoted (escChars t) := by
  intro hin
  rcases quoted_mem (escChars t) '\n' hin with h1 | h1
  · exact absurd h1 (by decide)
  · exact h (escChars_mem t '\n' h1)

theorem csvRow_no_newline (p : String × StoredComment) (hsafe : csvSafePair p) :
    '\n' ∉ csvRow p.1 p.2 := by
  obtain ⟨hs1, hs2, hs3, hs4, _, _, hs5, _, _, hs6⟩ := hsafe
  intro h
  rcases joinChar_mem ',' _ '\n' h with h1 | ⟨r, hr, hcr⟩
  · exact absurd h1 (by decide)
  · simp only [csvRowFields, List.mem_cons, List.not_mem_nil, or_false] at hr
    rcases hr with rfl | rfl | rfl | rfl | rfl | rfl | rfl | rfl | rfl
    · exact no_nl_quotedEsc _ hs1 hcr
    · exact no_nl_quotedEsc _ hs2 hcr
    · exact (toFixed6_not_bad p.2.position_x).2.2 hcr
    · exact (toFixed6_not_bad p.2.position_y).2.2 hcr
    · exact (toFixed6_not_bad p.2.position_z).2.2 hcr
    · exact no_nl_quotedEsc _ hs3 hcr
    · exact no_nl_quoted _ hs5 hcr
    · exact no_nl_quoted _ hs6 hcr
    · exact no_nl_quotedEsc _ hs4 hcr

/-- C3 amended: for every store whose pairs are CSV-safe, the export splits
back into the header row followed by exactly one data row per comment in
iteration order; each data row is the comma-join of the nine fields in the
fixed order, where the scene, text, feature and user fields are quoted with
internal quotes doubled, the timestamp and id fields are quoted without
escaping, and the three coordinate fields are bare fixed-6-decimal
renderings (not quoted); and quote-aware parsing of each data row yields
exactly nine columns. -/
theorem exportCSV_format (st : Store)
    (hsafe : ∀ p ∈ allPairs st.data, csvSafePair p) :
    splitChar '\n' (exportCSV st).toList =
      csvHeader :: (allPairs st.data).map (fun p => csvRow p.1 p.2) ∧
    (∀ p ∈ allPairs st.data,
      csvRow p.1 p.2 = joinChar ',' [quoted (escChars p.1.toList), quoted (escChars p.2.text.toList), (toFixed6 p.2.position_x).toList, (toFixed6 p.2.position_y).toList, (toFixed6 p.2.position_z).toList, quoted (escChars ((p.2.featureName.getD "").toList)), quoted p.2.timestamp.toList, quoted p.2.id.toList, quoted (escChars p.2.user.toList)]) ∧
    (∀ p ∈ allPairs st.data, (parseCSVAux (csvRow p.1 p.2) [] false).length = 9) := by
  refine ⟨?_, fun p _ => rfl, fun p hp => ?_⟩
  · show splitChar '\n' (joinChar '\n' (csvHeader :: (allPairs st.data).map
      (fun p => csvRow p.1 p.2))) = _
    refine splitChar_joinChar '\n' _ (by simp) ?_
    intro r hr
    rcases List.mem_cons.mp hr with h1 | h1
    · subst h1
      decide
    · obtain ⟨p, hp, hpr⟩ := List.mem_map.mp h1
      subst hpr
      exact csvRow_no_newline p (hsafe p hp)
  · obtain ⟨_, _, _, _, hq5, hc5, _, hq6, hc6, _⟩ := hsafe p hp
    rw [parseCSVAux_csvRow p.1 p.2 hq5 hc5 hq6 hc6]
    rfl

set_option maxRecDepth 100000 in
/-- C3 counterexample: in the exported CSV of a one-comment store, the
third field of the data row (the X coordinate) is the bare string
`10.000000` — it is not wrapped in double quotes, so not every field is
quoted. -/
theorem exportCSV_unquoted_coord_cex :
    (splitChar ',' ((splitChar '\n' (exportCSV wStore).toList).getD 1 [])).getD 2 [] =
      "10.000000".toList ∧
    ((splitChar ',' ((splitChar '\n' (exportCSV wStore).toList).getD 1 [])).getD 2 []).head? ≠
      some '"' := by
  exact ⟨by with_unfolding_all decide, by with_unfolding_all decide⟩

/-- Witness for C3's amended theorem at a concrete one-comment store. -/
theorem exportCSV_format_witness :
    (∀ p ∈ allPairs wStore.data, csvSafePair p) ∧
    splitChar '\n' (exportCSV wStore).toList =
      csvHeader :: (allPairs wStore.data).map (fun p => csvRow p.1 p.2) ∧
    (∀ p ∈ allPairs wStore.data, (parseCSVAux (csvRow p.1 p.2) [] false).length = 9) := by
  have hsafe : ∀ p ∈ allPairs wStore.data, csvSafePair p := by decide
  exact ⟨hsafe, (exportCSV_format wStore hsafe).1, (exportCSV_format wStore hsafe).2.2⟩

/-! ### JSON values (model of the platform JSON object) -/

/-- A parsed JSON value.  JavaScript `undefined` never appears inside a
parsed document, so it is not represented. -/
inductive JValue where
  | null : JValue
  | bool : Bool → JValue
  | num : ℚ → JValue
  | str : String → JValue
  | arr : List JValue → JValue
  | obj : List (String × JValue) → JValue

/-- The lowercase hexadecimal digit character for `n < 16`. -/
def hexDigit (n : Nat) : Char := if n < 10 then decDigit n else Char.ofNat (87 + n)

/-- The value of a hexadecimal digit character. -/
def hexVal (c : Char) : Option Nat :=
  if 48 ≤ c.toNat ∧ c.toNat ≤ 57 then some (c.toNat - 48)
  else if 97 ≤ c.toNat ∧ c.toNat ≤ 102 then some (c.toNat - 87)
  else if 65 ≤ c.toNat ∧ c.toNat ≤ 70 then some (c.toNat - 55)
  else none

/-- JSON string escaping of one character, as `JSON.stringify` does it:
quote, backslash and the named control characters get two-character escapes,
other control characters get `\u00xx`, everything else is emitted raw. -/
def escJChar (c : Char) : List Char :=
  if c = '"' then ['\\', '"']
  else if c = '\\' then ['\\', '\\']
  else if c = '\n' then ['\\', 'n']
  else if c = '\t' then ['\\', 't']
  else if c = '\r' then ['\\', 'r']
  else if c = Char.ofNat 8 then ['\\', 'b']
  else if c = Char.ofNat 12 then ['\\', 'f']
  else if c.toNat < 32 then ['\\', 'u', '0', '0', hexDigit (c.toNat / 16), hexDigit (c.toNat % 16)]
  else [c]

/-- JSON string escaping. -/
def escJString (s : List Char) : List Char := (s.map escJChar).flatten

/-- A JSON string literal: escaped content wrapped in quotes. -/
def quoteJ (s : List Char) : List Char := '"' :: escJString s ++ ['"']

/-- The decimal exponent of a rational with a finite decimal expansion: the
least `e ≤ 1100` with `q * 10^e` integral.  Every JavaScript number has one
(binary doubles have finite decimal expansions of fewer than 1100 digits). -/
def decExp (q : ℚ) : Option Nat := (List.range 1101).find? (fun e => (q * (10 : ℚ) ^ e).den = 1)

/-- Decimal digits of an integer (with sign). -/
def intChars (i : Int) : List Char :=
  if i < 0 then '-' :: natDigits i.natAbs else natDigits i.natAbs

/-- Decimal rendering of a JSON number (model of JavaScript number to
string for numbers with finite decimal expansion; the fallback branch for
numbers with no decimal expansion below 10^1100 is never reached on
JavaScript-representable values). -/
def numToString (q : ℚ) : List Char :=
  match decExp q with
  | none => ['0']
  | some e =>
    let m : Int := (q * (10 : ℚ) ^ e).num
    if e = 0 then intChars m
    else
      (if m < 0 then ['-'] else []) ++ natDigits (m.natAbs / 10 ^ e) ++
        '.' :: padLeftZeros e (natDigits (m.natAbs % 10 ^ e))

/-- Indentation emitted by `JSON.stringify(v, null, 2)`: two spaces per
nesting level. -/
def indentChars (ind : Nat) : List Char := List.replicate (2 * ind) ' '

mutual

/-- Model of `JSON.stringify(v, null, 2)` at nesting depth `ind`. -/
def jstringifyAt : Nat → JValue → List Char
  | _, .null => "null".toList
  | _, .bool true => "true".toList
  | _, .bool false => "false".toList
  | _, .num q => numToString q
  | _, .str s => quoteJ s.toList
  | _, .arr [] => "[]".toList
  | ind, .arr (x :: xs) =>
    '[' :: '\n' :: (jstringifyItems (ind + 1) x xs ++ '\n' :: indentChars ind ++ [']'])
  | _, .obj [] => "\x7b\x7d".toList
  | ind, .obj (m :: ms) =>
    '\x7b' :: '\n' :: (jstringifyMembers (ind + 1) m ms ++ '\n' :: indentChars ind ++ ['\x7d'])
termination_by ind v => sizeOf v
decreasing_by all_goals (simp_wf <;> omega)

/-- The comma-and-newline separated items of a non-empty array. -/
def jstringifyItems : Nat → JValue → List JValue → List Char
  | ind, x, [] => indentChars ind ++ jstringifyAt ind x
  | ind, x, y :: rest =>
    indentChars ind ++ jstringifyAt ind x ++ ',' :: '\n' :: jstringifyItems ind y rest
termination_by ind x xs => sizeOf x + sizeOf xs
decreasing_by all_goals (simp_wf <;> omega)

/-- The comma-and-newline separated members of a non-empty object. -/
def jstringifyMembers : Nat → (String × JValue) → List (String × JValue) → List Char
  | ind, (k, v), [] => indentChars ind ++ quoteJ k.toList ++ ':' :: ' ' :: jstringifyAt ind v
  | ind, (k, v), m2 :: rest =>
    indentChars ind ++ quoteJ k.toList ++ ':' :: ' ' :: jstringifyAt ind v ++
      ',' :: '\n' :: jstringifyMembers ind m2 rest
termination_by ind m ms => sizeOf m + sizeOf ms
decreasing_by all_goals (simp_wf <;> omega)

end

/-- JSON whitespace. -/
def isJsonWs (c : Char) : Bool := c = ' ' || c = '\t' || c = '\n' || c = '\r'

/-- Skip JSON whitespace. -/
def skipWs (cs : List Char) : List Char := cs.dropWhile isJsonWs

/-- Unescape a two-character JSON escape. -/
def unescChar (e : Char) : Option Char :=
  if e = '"' then some '"'
  else if e = '\\' then some '\\'
  else if e = '/' then some '/'
  else if e = 'n' then some '\n'
  else if e = 't' then some '\t'
  else if e = 'r' then some '\r'
  else if e = 'b' then some (Char.ofNat 8)
  else if e = 'f' then some (Char.ofNat 12)
  else none

/-- Parse four hexadecimal digits. -/
def parseHex4 : List Char → Option (Nat × List Char)
  | h1 :: h2 :: h3 :: h4 :: rest =>
    match hexVal h1, hexVal h2, hexVal h3, hexVal h4 with
    | some a, some b, some c2, some d => some (((a * 16 + b) * 16 + c2) * 16 + d, rest)
    | _, _, _, _ => none
  | _ => none

/-- Parse the body of a JSON string literal after its opening quote,
returning the content and the input after the closing quote.  The fuel
bounds the number of produced characters; one unit is consumed per content
character and one for the closing quote. -/
def parseJStringAux : Nat → List Char → Option (List Char × List Char)
  | 0, _ => none
  | _, [] => none
  | f + 1, c :: rest =>
    if c = '"' then some ([], rest)
    else if c = '\\' then
      match rest with
      | [] => none
      | e :: rest2 =>
        if e = 'u' then
          match parseHex4 rest2 with
          | some nr => (parseJStringAux f nr.2).map (fun r => (Char.ofNat nr.1 :: r.1, r.2))
          | none => none
        else
          match unescChar e with
          | some u => (parseJStringAux f rest2).map (fun r => (u :: r.1, r.2))
          | none => none
    else (parseJStringAux f rest).map (fun r => (c :: r.1, r.2))

/-- Parse a JSON number: optional minus, integer digits, optional fraction,
optional exponent. -/
def parseJNumber (cs : List Char) : Option (ℚ × List Char) :=
  let cs1 := if cs.head? = some '-' then cs.tail else cs
  let ip := cs1.takeWhile isAsciiDigit
  let rest1 := cs1.dropWhile isAsciiDigit
  if ip = [] then none
  else
    let fp := if rest1.head? = some '.' then rest1.tail.takeWhile isAsciiDigit else []
    let rest2 := if rest1.head? = some '.' then rest1.tail.dropWhile isAsciiDigit else rest1
    if rest1.head? = some '.' ∧ fp = [] then none
    else
      if rest2.head? = some 'e' ∨ rest2.head? = some 'E' then
        let er := rest2.tail
        let er1 := if er.head? = some '-' ∨ er.head? = some '+' then er.tail else er
        let ed := er1.takeWhile isAsciiDigit
        if ed = [] then none
        else
          let ev : Int := if er.head? = some '-' then -(digitsVal ed : Int) else (digitsVal ed : Int)
          let mag : ℚ := ((digitsVal ip : ℚ) + (digitsVal fp : ℚ) / (10 : ℚ) ^ fp.length)
            * (10 : ℚ) ^ ev
          some (if cs.head? = some '-' then -mag else mag, er1.dropWhile isAsciiDigit)
      else
        let mag : ℚ := (digitsVal ip : ℚ) + (digitsVal fp : ℚ) / (10 : ℚ) ^ fp.length
        some (if cs.head? = some '-' then -mag else mag, rest2)

mutual

/-- Fuelled model of `JSON.parse` on a single value. -/
def parseJValue : Nat → List Char → Option (JValue × List Char)
  | 0, _ => none
  | f + 1, cs0 =>
    match skipWs cs0 with
    | [] => none
    | c :: rest =>
      if c = '\x7b' then
        match skipWs rest with
        | '\x7d' :: rest2 => some (.obj [], rest2)
        | cs2 => (parseJMembers f cs2).map (fun r => (.obj r.1, r.2))
      else if c = '[' then
        match skipWs rest with
        | ']' :: rest2 => some (.arr [], rest2)
        | cs2 => (parseJElems f cs2).map (fun r => (.arr r.1, r.2))
      else if c = '"' then
        (parseJStringAux (rest.length + 1) rest).map (fun r => (.str (String.mk r.1), r.2))
      else if (c :: rest).take 4 = "true".toList then some (.bool true, (c :: rest).drop 4)
      else if (c :: rest).take 5 = "false".toList then some (.bool false, (c :: rest).drop 5)
      else if (c :: rest).take 4 = "null".toList then some (.null, (c :: rest).drop 4)
      else (parseJNumber (c :: rest)).map (fun r => (.num r.1, r.2))

/-- Fuelled parse of the members of an object, consuming the closing
brace. -/
def parseJMembers : Nat → List Char → Option (List (String × JValue) × List Char)
  | 0, _ => none
  | f + 1, cs0 =>
    match skipWs cs0 with
    | '"' :: rest =>
      match parseJStringAux (rest.length + 1) rest with
      | none => none
      | some (key, rest2) =>
        match skipWs rest2 with
        | ':' :: rest3 =>
          match parseJValue f rest3 with
          | none => none
          | some (v, rest4) =>
            match skipWs rest4 with
            | ',' :: rest5 =>
              (parseJMembers f rest5).map (fun r => ((String.mk key, v) :: r.1, r.2))
            | '\x7d' :: rest5 => some ([(String.mk key, v)], rest5)
            | _ => none
        | _ => none
    | _ => none

/-- Fuelled parse of the elements of an array, consuming the closing
bracket. -/
def parseJElems : Nat → List Char → Option (List JValue × List Char)
  | 0, _ => none
  | f + 1, cs0 =>
    match parseJValue f cs0 with
    | none => none
    | some (v, rest) =>
      match skipWs rest with
      | ',' :: rest2 => (parseJElems f rest2).map (fun r => (v :: r.1, r.2))
      | ']' :: rest2 => some ([v], rest2)
      | _ => none

end

/-- Model of `JSON.parse`: parse one value and require only whitespace to
remain. -/
def jsonParse (s : String) : Option JValue :=
  match parseJValue (s.length + 1) s.toList with
  | some (v, rest) => if skipWs rest = [] then some v else none
  | none => none

/-! ### Encoding the typed document as JSON, and importData -/

/-- JSON encoding of a JS number (`JSON.stringify(NaN)` is `null`). -/
def encodeNum : JSNum → JValue
  | .nan => .null
  | .val q => .num q

/-- JSON encoding of one stored comment, with the field order of the object
literal in `saveComment`. -/
def encodeComment (c : StoredComment) : JValue :=
  .obj [ ("id", .str c.id), ("text", .str c.text)
       , ("position_x", encodeNum c.position_x)
       , ("position_y", encodeNum c.position_y)
       , ("position_z", encodeNum c.position_z)
       , ("featureName", match c.featureName with | none => .null | some s => .str s)
       , ("timestamp", .str c.timestamp), ("user", .str c.user), ("szene", .str c.szene) ]

/-- JSON encoding of the whole document. -/
def encodeData (d : CommentsData) : JValue :=
  .obj [ ("comments", .obj (d.comments.map (fun p => (p.1, .arr (p.2.map encodeComment)))))
       , ("metadata", .obj [("version", .str d.metadata.version)]) ]

/-- Typed reading of a JSON number (rejects `null`, i.e. encoded `NaN`). -/
def decodeNum : JValue → Option JSNum
  | .num q => some (.val q)
  | _ => none

/-- Typed reading of the nullable feature name. -/
def decodeFeature : JValue → Option (Option String)
  | .null => some none
  | .str s => some (some s)
  | _ => none

/-- Typed reading of one comment object (the schema written by
`saveComment`). -/
def decodeComment : JValue → Option StoredComment
  | .obj [ ("id", .str id0), ("text", .str text0), ("position_x", px), ("position_y", py)
         , ("position_z", pz), ("featureName", fn), ("timestamp", .str ts)
         , ("user", .str us), ("szene", .str sz) ] =>
    match decodeNum px, decodeNum py, decodeNum pz, decodeFeature fn with
    | some x, some y, some z, some f => some ⟨id0, text0, x, y, z, f, ts, us, sz⟩
    | _, _, _, _ => none
  | _ => none

/-- Typed reading of one scene's comment array. -/
def decodeScene : JValue → Option (List StoredComment)
  | .arr xs => xs.mapM decodeComment
  | _ => none

/-- Typed reading of a whole parsed document. -/
def decodeData : JValue → Option CommentsData
  | .obj [("comments", .obj scenes), ("metadata", .obj [("version", .str ver)])] =>
    (scenes.mapM (fun p => (decodeScene p.2).map (fun l => (p.1, l)))).map
      (fun cs => ⟨cs, ⟨ver⟩⟩)
  | _ => none

/-- Property read on a parsed JSON value (JS member access). -/
def jsGetField (v : JValue) (k : String) : Option JValue :=
  match v with
  | .obj fs => objGet fs k
  | _ => none

/-- The source's validation of `parsed.comments`: the JS test
`parsed.comments && typeof parsed.comments === 'object'`.  `null` is falsy;
arrays have `typeof` "object" and therefore pass. -/
def jsTruthyObject (v : Option JValue) : Bool :=
  match v with
  | some (.obj _) => true
  | some (.arr _) => true
  | _ => false

/-- Whether a JSON value is a plain object (a map in the schema's sense —
an array is not). -/
def isPlainJsObject (v : JValue) : Bool :=
  match v with
  | .obj _ => true
  | _ => false

/-- The parse-and-validate prefix of `importData`: returns the parsed value
exactly when the import succeeds (`JSON.parse` not throwing, and the
`comments` field truthy of object type); `none` models the thrown error
that `safeExecute` catches. -/
def importValidated (jsonData : String) : Option JValue :=
  match jsonParse jsonData with
  | none => none
  | some v => if jsTruthyObject (jsGetField v "comments") then some v else none

/-- Model of `importData(jsonData)`: the `Bool` is the value the source
returns (`false` on any caught error); the `Option Store` is the resulting
typed state — `some` whenever the parsed document lies in the typed state
space (`decodeData` succeeds), in which case the document is replaced,
persisted (which clears the cache) and the cache cleared again. -/
def importData (jsonData : String) (st : Store) : Bool × Option Store :=
  match importValidated jsonData with
  | none => (false, some st)
  | some v => (true, (decodeData v).map (fun d => saveToStorage { st with data := d }))

/-- Model of `exportJSON()`: `JSON.stringify(this.data, null, 2)`. -/
def exportJSON (st : Store) : String := String.mk (jstringifyAt 0 (encodeData st.data))

/-! ### C4: importData validation and effects -/

/-- C4 amended: `importData` validates only that the parsed top-level value
has a truthy `comments` field whose JS `typeof` is object — plain maps and
arrays both pass. On unparsable JSON or a failing check, the thrown error is
caught and surfaced as `false`, and the live document, cache and
persistence count are untouched.  On success with a schema-conformant
payload, the whole in-memory document is replaced by the parsed one, it is
persisted (one more persistence call), and the read cache is cleared. -/
theorem importData_spec (s : String) (st : Store) :
    (jsonParse s = none → importData s st = (false, some st)) ∧
    (∀ v, jsonParse s = some v → jsTruthyObject (jsGetField v "comments") = false →
      importData s st = (false, some st)) ∧
    (∀ v d, jsonParse s = some v → jsTruthyObject (jsGetField v "comments") = true →
      decodeData v = some d →
      importData s st = (true, some { data := d, cache := [], saveCount := st.saveCount + 1, maxCacheSize := st.maxCacheSize })) := by
  refine ⟨fun h => ?_, fun v h hval => ?_, fun v d h hval hdec => ?_⟩
  · simp [importData, importValidated, h]
  · simp [importData, importValidated, h, hval]
  · simp [importData, importValidated, h, hval, hdec, saveToStorage]

/-- Witness for C4's amended theorem: the three branches at concrete
inputs (unparsable text; a parsable object without `comments`; a full
well-formed document). -/
theorem importData_spec_witness :
    importData "not json" (mkStore getDefaultData) = (false, some (mkStore getDefaultData)) ∧
    importData "\x7b\"x\": true\x7d" (mkStore getDefaultData) =
      (false, some (mkStore getDefaultData)) ∧
    importData "\x7b\"comments\": \x7b\x7d, \"metadata\": \x7b\"version\": \"2.1\"\x7d\x7d"
        (mkStore getDefaultData) =
      (true, some { data := ⟨[], ⟨"2.1"⟩⟩, cache := [], saveCount := 1, maxCacheSize := CACHE_MAX_SIZE }) := by
  refine ⟨(importData_spec "not json" (mkStore getDefaultData)).1 (by rfl),
    (importData_spec "\x7b\"x\": true\x7d" (mkStore getDefaultData)).2.1
      (.obj [("x", .bool true)]) (by rfl) (by rfl),
    (importData_spec "\x7b\"comments\": \x7b\x7d, \"metadata\": \x7b\"version\": \"2.1\"\x7d\x7d"
      (mkStore getDefaultData)).2.2
      (.obj [("comments", .obj []), ("metadata", .obj [("version", .str "2.1")])])
      ⟨[], ⟨"2.1"⟩⟩ (by rfl) (by rfl) (by rfl)⟩

/-- C4 counterexample: the input whose `comments` field is an array (not a
map) passes the source's validation and imports successfully — no
`InvalidFormat` is raised — because JS `typeof` of an array is `'object'`. -/
theorem importData_array_cex :
    (importData "\x7b\"comments\": []\x7d" (mkStore getDefaultData)).1 = true ∧
    (∃ v, importValidated "\x7b\"comments\": []\x7d" = some v ∧
      jsGetField v "comments" = some (.arr []) ∧
      isPlainJsObject (.arr []) = false) := by
  refine ⟨by rfl, ⟨.obj [("comments", .arr [])], by rfl, by rfl, by rfl⟩⟩

/-! ### C9 machinery: JSON parse inverts JSON stringify -/

theorem skipWs_cons_not (c : Char) (s : List Char) (h : isJsonWs c = false) :
    skipWs (c :: s) = c :: s := by
  simp [skipWs, List.dropWhile, h]

theorem skipWs_cons_ws (c : Char) (s : List Char) (h : isJsonWs c = true) :
    skipWs (c :: s) = skipWs s := by
  simp [skipWs, List.dropWhile, h]

theorem skipWs_indent (n : Nat) (s : List Char) :
    skipWs (indentChars n ++ s) = skipWs s := by
  induction n with
  | zero => simp [indentChars]
  | succ k ih =>
    have : indentChars (k + 1) = ' ' :: ' ' :: indentChars k := by
      simp only [indentChars]
      rw [show 2 * (k + 1) = (2 * k + 1) + 1 from by omega]
      rw [List.replicate_succ]
      rw [List.replicate_succ]
    rw [this]
    simp only [List.cons_append]
    rw [skipWs_cons_ws _ _ (by decide), skipWs_cons_ws _ _ (by decide)]
    exact ih

theorem hexVal_hexDigit (k : Nat) (h : k < 16) : hexVal (hexDigit k) = some k := by
  interval_cases k <;> rfl

theorem parse_escJChar (f : Nat) (c : Char) (zs : List Char) :
    parseJStringAux (f + 1) (escJChar c ++ zs) =
      (parseJStringAux f zs).map (fun r => (c :: r.1, r.2)) := by
  by_cases h1 : c = '"'
  · subst h1; rfl
  by_cases h2 : c = '\\'
  · subst h2; rfl
  by_cases h3 : c = '\n'
  · subst h3; rfl
  by_cases h4 : c = '\t'
  · subst h4; rfl
  by_cases h5 : c = '\r'
  · subst h5; rfl
  by_cases h6 : c = Char.ofNat 8
  · subst h6; rfl
  by_cases h7 : c = Char.ofNat 12
  · subst h7; rfl
  by_cases h8 : c.toNat < 32
  · have hdiv : c.toNat / 16 < 16 := by omega
    have hmod : c.toNat % 16 < 16 := by omega
    have hesc : escJChar c =
        ['\\', 'u', '0', '0', hexDigit (c.toNat / 16), hexDigit (c.toNat % 16)] := by
      simp [escJChar, h1, h2, h3, h4, h5, h6, h7, h8]
    rw [hesc]
    show parseJStringAux (f + 1) ('\\' :: 'u' :: '0' :: '0' :: hexDigit (c.toNat / 16) ::
      hexDigit (c.toNat % 16) :: zs) = (parseJStringAux f zs).map (fun r => (c :: r.1, r.2))
    have hh : parseJStringAux (f + 1) ('\\' :: 'u' :: '0' :: '0' :: hexDigit (c.toNat / 16) ::
        hexDigit (c.toNat % 16) :: zs) =
        (match parseHex4 ('0' :: '0' :: hexDigit (c.toNat / 16) :: hexDigit (c.toNat % 16) :: zs) with
          | some nr => (parseJStringAux f nr.2).map (fun r => (Char.ofNat nr.1 :: r.1, r.2))
          | none => none) := rfl
    rw [hh]
    have hp4 : parseHex4 ('0' :: '0' :: hexDigit (c.toNat / 16) :: hexDigit (c.toNat % 16) :: zs) =
        some (((0 * 16 + 0) * 16 + c.toNat / 16) * 16 + c.toNat % 16, zs) := by
      simp [parseHex4, hexVal_hexDigit _ hdiv, hexVal_hexDigit _ hmod,
        show hexVal '0' = some 0 from rfl]
    rw [hp4]
    have hchar : Char.ofNat (((0 * 16 + 0) * 16 + c.toNat / 16) * 16 + c.toNat % 16) = c := by
      rw [show ((0 * 16 + 0) * 16 + c.toNat / 16) * 16 + c.toNat % 16 = c.toNat from by omega]
      exact Char.ofNat_toNat c
    simp only [hchar]
  · have hesc : escJChar c = [c] := by
      simp [escJChar, h1, h2, h3, h4, h5, h6, h7, h8]
    rw [hesc]
    show parseJStringAux (f + 1) (c :: zs) = _
    rw [parseJStringAux.eq_def]
    simp [h1, h2]

theorem parse_escJString (s : List Char) (rest : List Char) :
    ∀ f, s.length + 1 ≤ f →
    parseJStringAux f (escJString s ++ '"' :: rest) = some (s, rest) := by
  induction s with
  | nil =>
    intro f hf
    match f, hf with
    | g + 1, _ => rfl
  | cons c s2 ih =>
    intro f hf
    match f, hf with
    | g + 1, hf =>
      show parseJStringAux (g + 1) ((escJChar c ++ escJString s2) ++ '"' :: rest) = _
      rw [List.append_assoc, parse_escJChar g c _, ih g (by simp at hf; omega)]
      rfl

/-- Head condition under which a parsed number cannot greedily continue
into the following characters. -/
def numHeadOK (rest : List Char) : Prop :=
  match rest with
  | [] => True
  | c :: _ => isAsciiDigit c = false ∧ c ≠ '.' ∧ c ≠ 'e' ∧ c ≠ 'E'

def headNot (p : Char → Bool) (ys : List Char) : Prop :=
  match ys with
  | [] => True
  | c :: _ => p c = false

theorem takeWhile_all_append (p : Char → Bool) (xs ys : List Char)
    (hall : ∀ c ∈ xs, p c = true)
    (hhead : headNot p ys) :
    (xs ++ ys).takeWhile p = xs ∧ (xs ++ ys).dropWhile p = ys := by
  induction xs with
  | nil =>
    match ys with
    | [] => exact ⟨rfl, rfl⟩
    | c :: t =>
      simp only [List.nil_append, List.takeWhile, List.dropWhile]
      rw [show p c = false from hhead]
      exact ⟨rfl, rfl⟩
  | cons x xs2 ih =>
    have hx := hall x (by simp)
    obtain ⟨ht, hd⟩ := ih (fun c hc => hall c (by simp [hc]))
    simp only [List.cons_append, List.takeWhile, List.dropWhile]
    rw [hx]
    constructor
    · show x :: List.takeWhile p (xs2 ++ ys) = x :: xs2
      rw [ht]
    · show List.dropWhile p (xs2 ++ ys) = ys
      rw [hd]

theorem digitsVal_replicate_zero (k : Nat) (ds : List Char) :
    digitsVal (List.replicate k '0' ++ ds) = digitsVal ds := by
  induction k with
  | zero => simp
  | succ k2 ih =>
    rw [List.replicate_succ]
    show List.foldl _ (0 * 10 + ('0'.toNat - 48)) _ = _
    simpa [digitsVal] using ih

theorem natDigits_step (n : Nat) (h : ¬ n < 10) :
    natDigits n = natDigits (n / 10) ++ [decDigit (n % 10)] := by
  have hdiv : n / 10 < n := Nat.div_lt_self (by omega) (by omega)
  show natDigitsAux (n + 1) n = _
  simp only [natDigitsAux, h, if_false]
  rw [natDigitsAux_congr (n / 10) n (n / 10 + 1) (by omega) (by omega)]
  rfl

theorem natDigits_length_le (n k : Nat) (hk : 1 ≤ k) (h : n < 10 ^ k) :
    (natDigits n).length ≤ k := by
  induction n using Nat.strongRecOn generalizing k with
  | _ n ih =>
    by_cases h10 : n < 10
    · have : natDigits n = [decDigit n] := by
        show natDigitsAux (n + 1) n = _
        simp [natDigitsAux, h10]
      rw [this]
      simpa using hk
    · have hdiv : n / 10 < n := Nat.div_lt_self (by omega) (by omega)
      have hk2 : 2 ≤ k := by
        by_contra hcontra
        have : k = 1 := by omega
        subst this
        simp at h
        omega
      have hlt : n / 10 < 10 ^ (k - 1) := by
        rw [Nat.div_lt_iff_lt_mul (by omega)]
        calc n < 10 ^ k := h
        _ = 10 ^ (k - 1) * 10 := by
            rw [← pow_succ]
            congr 1
            omega
      rw [natDigits_step n h10]
      have := ih (n / 10) hdiv (k - 1) (by omega) hlt
      simp only [List.length_append, List.length_cons, List.length_nil]
      omega

theorem padLeftZeros_length (k : Nat) (cs : List Char) (h : cs.length ≤ k) :
    (padLeftZeros k cs).length = k := by
  simp [padLeftZeros]
  omega

theorem padLeftZeros_all_digits (k n : Nat) (c : Char)
    (h : c ∈ padLeftZeros k (natDigits n)) : isAsciiDigit c = true := by
  rcases List.mem_append.mp h with h1 | h1
  · have := List.eq_of_mem_replicate h1
    subst this
    decide
  · exact natDigitsAux_digit _ _ c h1

theorem digitsVal_padLeftZeros (k n : Nat) :
    digitsVal (padLeftZeros k (natDigits n)) = n := by
  unfold padLeftZeros
  rw [digitsVal_replicate_zero, digitsVal_natDigits]

theorem natDigits_head_digit (n : Nat) :
    ∃ d ds, natDigits n = d :: ds ∧ isAsciiDigit d = true := by
  match hnd : natDigits n with
  | [] => exact absurd hnd (natDigitsAux_ne_nil (n + 1) n (by omega))
  | d :: ds =>
    exact ⟨d, ds, rfl, natDigitsAux_digit _ _ d (by rw [show natDigitsAux (n + 1) n = d :: ds from hnd]; simp)⟩

theorem digit_facts (c : Char) (h : isAsciiDigit c = true) :
    c ≠ '-' ∧ c ≠ '.' ∧ c ≠ 'e' ∧ c ≠ 'E' ∧ isJsonWs c = false ∧
    c ≠ '\x7b' ∧ c ≠ '[' ∧ c ≠ '"' ∧ c ≠ 't' ∧ c ≠ 'f' ∧ c ≠ 'n' ∧ c ≠ ']' ∧ c ≠ '\x7d' := by
  have hws : isJsonWs c = false := by
    by_contra hcontra
    simp only [Bool.not_eq_false] at hcontra
    simp only [isJsonWs, Bool.or_eq_true, decide_eq_true_eq] at hcontra
    rcases hcontra with ((((rfl | rfl) | rfl) | rfl) | rfl) | rfl <;>
      exact absurd h (by decide)
  refine ⟨?_, ?_, ?_, ?_, hws, ?_, ?_, ?_, ?_, ?_, ?_, ?_, ?_⟩ <;>
    (intro hcontra; subst hcontra; exact absurd h (by decide))

theorem numHeadOK_facts (rest : List Char) (h : numHeadOK rest) :
    ¬ rest.head? = some '.' ∧ ¬ rest.head? = some 'e' ∧ ¬ rest.head? = some 'E' ∧
    headNot isAsciiDigit rest := by
  match rest with
  | [] => exact ⟨by simp, by simp, by simp, trivial⟩
  | c :: t =>
    obtain ⟨h1, h2, h3, h4⟩ := h
    exact ⟨by simp [h2], by simp [h3], by simp [h4], h1⟩

theorem parseJNumber_nat (a : Nat) (rest : List Char) (hrest : numHeadOK rest) :
    parseJNumber (natDigits a ++ rest) = some ((a : ℚ), rest) := by
  obtain ⟨d, ds, hnd, hd⟩ := natDigits_head_digit a
  obtain ⟨hdm, -, -, -, -, -, -, -, -, -, -, -, -⟩ := digit_facts d hd
  obtain ⟨hdot, hex1, hex2, hhead⟩ := numHeadOK_facts rest hrest
  have hall : ∀ c ∈ natDigits a, isAsciiDigit c = true := fun c hc => natDigitsAux_digit _ _ c hc
  obtain ⟨htake, hdrop⟩ := takeWhile_all_append isAsciiDigit (natDigits a) rest hall hhead
  have hne : natDigits a ≠ [] := natDigitsAux_ne_nil _ _ (by omega)
  have hheadq : (natDigits a ++ rest).head? = some d := by rw [hnd]; rfl
  have hneg : ¬ (natDigits a ++ rest).head? = some '-' := by
    rw [hheadq]
    intro hc
    exact hdm (by simpa using hc)
  simp only [parseJNumber, if_neg hneg, htake, hdrop, if_neg hne, if_neg hdot]
  rw [if_neg (show ¬ (rest.head? = some '.' ∧ True) from fun hc => hdot hc.1)]
  rw [if_neg (show ¬ (rest.head? = some 'e' ∨ rest.head? = some 'E') from
    fun hc => hc.elim hex1 hex2)]
  norm_num [digitsVal_natDigits, show digitsVal [] = 0 from rfl]

theorem parseJNumber_neg_nat (a : Nat) (rest : List Char) (hrest : numHeadOK rest) :
    parseJNumber ('-' :: (natDigits a ++ rest)) = some (-(a : ℚ), rest) := by
  obtain ⟨hdot, hex1, hex2, hhead⟩ := numHeadOK_facts rest hrest
  have hall : ∀ c ∈ natDigits a, isAsciiDigit c = true := fun c hc => natDigitsAux_digit _ _ c hc
  obtain ⟨htake, hdrop⟩ := takeWhile_all_append isAsciiDigit (natDigits a) rest hall hhead
  have hne : natDigits a ≠ [] := natDigitsAux_ne_nil _ _ (by omega)
  have hneg : ('-' :: (natDigits a ++ rest)).head? = some '-' := rfl
  simp only [parseJNumber, if_pos hneg,
    show ('-' :: (natDigits a ++ rest)).tail = natDigits a ++ rest from rfl,
    htake, hdrop, if_neg hne, if_neg hdot]
  rw [if_neg (show ¬ (rest.head? = some '.' ∧ True) from fun hc => hdot hc.1)]
  rw [if_neg (show ¬ (rest.head? = some 'e' ∨ rest.head? = some 'E') from
    fun hc => hc.elim hex1 hex2)]
  norm_num [digitsVal_natDigits, show digitsVal [] = 0 from rfl]

theorem parseJNumber_nat_frac (a : Nat) (fp : List Char) (hfp : fp ≠ [])
    (hfpd : ∀ c ∈ fp, isAsciiDigit c = true) (rest : List Char) (hrest : numHeadOK rest) :
    parseJNumber (natDigits a ++ '.' :: (fp ++ rest)) =
      some ((a : ℚ) + (digitsVal fp : ℚ) / (10 : ℚ) ^ fp.length, rest) := by
  obtain ⟨d, ds, hnd, hd⟩ := natDigits_head_digit a
  obtain ⟨hdm, -, -, -, -, -, -, -, -, -, -, -, -⟩ := digit_facts d hd
  obtain ⟨hdot, hex1, hex2, hhead⟩ := numHeadOK_facts rest hrest
  have hall : ∀ c ∈ natDigits a, isAsciiDigit c = true := fun c hc => natDigitsAux_digit _ _ c hc
  obtain ⟨htake, hdrop⟩ := takeWhile_all_append isAsciiDigit (natDigits a) ('.' :: (fp ++ rest))
    hall (show isAsciiDigit '.' = false by decide)
  obtain ⟨htake2, hdrop2⟩ := takeWhile_all_append isAsciiDigit fp rest hfpd hhead
  have hne : natDigits a ≠ [] := natDigitsAux_ne_nil _ _ (by omega)
  have hheadq : (natDigits a ++ '.' :: (fp ++ rest)).head? = some d := by rw [hnd]; rfl
  have hneg : ¬ (natDigits a ++ '.' :: (fp ++ rest)).head? = some '-' := by
    rw [hheadq]
    intro hc
    exact hdm (by simpa using hc)
  have hdothead : ('.' :: (fp ++ rest)).head? = some '.' := rfl
  simp only [parseJNumber, if_neg hneg, htake, hdrop, if_neg hne, if_pos hdothead,
    show ('.' :: (fp ++ rest)).tail = fp ++ rest from rfl, htake2, hdrop2]
  rw [if_neg (show ¬ (('.' :: (fp ++ rest)).head? = some '.' ∧ fp = []) from fun hc => hfp hc.2)]
  rw [if_neg (show ¬ (rest.head? = some 'e' ∨ rest.head? = some 'E') from
    fun hc => hc.elim hex1 hex2)]
  rw [digitsVal_natDigits]

theorem parseJNumber_neg_nat_frac (a : Nat) (fp : List Char) (hfp : fp ≠ [])
    (hfpd : ∀ c ∈ fp, isAsciiDigit c = true) (rest : List Char) (hrest : numHeadOK rest) :
    parseJNumber ('-' :: (natDigits a ++ '.' :: (fp ++ rest))) =
      some (-((a : ℚ) + (digitsVal fp : ℚ) / (10 : ℚ) ^ fp.length), rest) := by
  obtain ⟨hdot, hex1, hex2, hhead⟩ := numHeadOK_facts rest hrest
  have hall : ∀ c ∈ natDigits a, isAsciiDigit c = true := fun c hc => natDigitsAux_digit _ _ c hc
  obtain ⟨htake, hdrop⟩ := takeWhile_all_append isAsciiDigit (natDigits a) ('.' :: (fp ++ rest))
    hall (show isAsciiDigit '.' = false by decide)
  obtain ⟨htake2, hdrop2⟩ := takeWhile_all_append isAsciiDigit fp rest hfpd hhead
  have hne : natDigits a ≠ [] := natDigitsAux_ne_nil _ _ (by omega)
  have hneg : ('-' :: (natDigits a ++ '.' :: (fp ++ rest))).head? = some '-' := rfl
  have hdothead : ('.' :: (fp ++ rest)).head? = some '.' := rfl
  simp only [parseJNumber, if_pos hneg,
    show ('-' :: (natDigits a ++ '.' :: (fp ++ rest))).tail = natDigits a ++ '.' :: (fp ++ rest)
      from rfl,
    htake, hdrop, if_neg hne, if_pos hdothead,
    show ('.' :: (fp ++ rest)).tail = fp ++ rest from rfl, htake2, hdrop2]
  rw [if_neg (show ¬ (('.' :: (fp ++ rest)).head? = some '.' ∧ fp = []) from fun hc => hfp hc.2)]
  rw [if_neg (show ¬ (rest.head? = some 'e' ∨ rest.head? = some 'E') from
    fun hc => hc.elim hex1 hex2)]
  rw [digitsVal_natDigits]

theorem parse_numToString (q : ℚ) (e : Nat) (he : decExp q = some e) (rest : List Char)
    (hrest : numHeadOK rest) :
    parseJNumber (numToString q ++ rest) = some (q, rest) := by
  have hpred : (q * (10 : ℚ) ^ e).den = 1 := by
    have h1 := List.find?_some he
    simpa using h1
  have hqm : (((q * (10 : ℚ) ^ e).num : ℚ)) = q * 10 ^ e := by
    conv_rhs => rw [← Rat.num_div_den (q * 10 ^ e)]
    rw [hpred]
    simp
  have hq : q = (((q * (10 : ℚ) ^ e).num : ℚ)) / 10 ^ e := by
    rw [hqm]
    field_simp
  simp only [numToString, he]
  set m := (q * (10 : ℚ) ^ e).num with hm
  by_cases he0 : e = 0
  · subst he0
    simp only [eq_self_iff_true, if_true]
    have hq0 : q = (m : ℚ) := by simpa using hq
    by_cases hmneg : m < 0
    · have hic : intChars m = '-' :: natDigits m.natAbs := by simp [intChars, hmneg]
      rw [hic]
      rw [show ('-' :: natDigits m.natAbs) ++ rest = '-' :: (natDigits m.natAbs ++ rest) from rfl]
      rw [parseJNumber_neg_nat _ _ hrest]
      have habs : ((m.natAbs : ℚ)) = -(m : ℚ) := by
        have h2 : ((m.natAbs : ℤ)) = -m := by omega
        rw [(@Int.cast_natCast ℚ _ m.natAbs).symm, h2]
        push_cast
        ring
      rw [show -((m.natAbs : ℚ)) = (m : ℚ) from by rw [habs]; ring, ← hq0]
    · have hic : intChars m = natDigits m.natAbs := by simp [intChars, hmneg]
      rw [hic, parseJNumber_nat _ _ hrest]
      have habs : ((m.natAbs : ℚ)) = (m : ℚ) := by
        have h2 : ((m.natAbs : ℤ)) = m := by omega
        rw [(@Int.cast_natCast ℚ _ m.natAbs).symm, h2]
      rw [habs, ← hq0]
  · rw [if_neg he0]
    have hepos : 1 ≤ e := by omega
    have hbe : m.natAbs % 10 ^ e < 10 ^ e := Nat.mod_lt _ (Nat.pos_pow_of_pos e (by omega))
    set b := m.natAbs % 10 ^ e with hb
    set a := m.natAbs / 10 ^ e with ha
    have hblen : (natDigits b).length ≤ e := natDigits_length_le b e hepos hbe
    have hfp : padLeftZeros e (natDigits b) ≠ [] := by
      have hl := padLeftZeros_length e (natDigits b) hblen
      intro hcontra
      rw [hcontra] at hl
      simp at hl
      omega
    have hfpd : ∀ c ∈ padLeftZeros e (natDigits b), isAsciiDigit c = true :=
      fun c hc => padLeftZeros_all_digits e b c hc
    have hlen : (padLeftZeros e (natDigits b)).length = e := padLeftZeros_length e _ hblen
    have hval : digitsVal (padLeftZeros e (natDigits b)) = b := digitsVal_padLeftZeros e b
    have hdm : a * 10 ^ e + b = m.natAbs := by
      rw [ha, hb, Nat.mul_comm]
      exact Nat.div_add_mod _ _
    have hmagval : ((a : ℚ) + (digitsVal (padLeftZeros e (natDigits b)) : ℚ) /
        (10 : ℚ) ^ (padLeftZeros e (natDigits b)).length) = (m.natAbs : ℚ) / 10 ^ e := by
      rw [hval, hlen]
      have h10 : ((10 : ℚ) ^ e) ≠ 0 := by positivity
      field_simp
      exact_mod_cast congrArg (fun n : Nat => (n : ℚ)) hdm
    by_cases hmneg : m < 0
    · rw [if_pos hmneg]
      rw [show ((['-'] ++ natDigits a ++ '.' :: padLeftZeros e (natDigits b)) ++ rest)
          = '-' :: (natDigits a ++ '.' :: (padLeftZeros e (natDigits b) ++ rest)) from by simp]
      rw [parseJNumber_neg_nat_frac a _ hfp hfpd rest hrest]
      have habs : ((m.natAbs : ℚ)) = -(m : ℚ) := by
        have h2 : ((m.natAbs : ℤ)) = -m := by omega
        rw [(@Int.cast_natCast ℚ _ m.natAbs).symm, h2]
        push_cast
        ring
      have hfinal : -((a : ℚ) + (digitsVal (padLeftZeros e (natDigits b)) : ℚ) /
          (10 : ℚ) ^ (padLeftZeros e (natDigits b)).length) = q := by
        rw [hmagval, habs, hq]
        ring
      rw [hfinal]
    · rw [if_neg hmneg]
      rw [show ((([] : List Char) ++ natDigits a ++ '.' :: padLeftZeros e (natDigits b)) ++ rest)
          = natDigits a ++ '.' :: (padLeftZeros e (natDigits b) ++ rest) from by simp]
      rw [parseJNumber_nat_frac a _ hfp hfpd rest hrest]
      have habs : ((m.natAbs : ℚ)) = (m : ℚ) := by
        have h2 : ((m.natAbs : ℤ)) = m := by omega
        rw [(@Int.cast_natCast ℚ _ m.natAbs).symm, h2]
      have hfinal : ((a : ℚ) + (digitsVal (padLeftZeros e (natDigits b)) : ℚ) /
          (10 : ℚ) ^ (padLeftZeros e (natDigits b)).length) = q := by
        rw [hmagval, habs, hq]
      rw [hfinal]

mutual

/-- Well-formedness of a JSON value for the round trip: every number has a
finite decimal expansion within the searched range. -/
def JWF : JValue → Prop
  | .null => True
  | .bool _ => True
  | .num q => (decExp q).isSome
  | .str _ => True
  | .arr xs => JWFList xs
  | .obj ms => JWFMembers ms
termination_by v => sizeOf v

/-- Well-formedness of a list of JSON values. -/
def JWFList : List JValue → Prop
  | [] => True
  | x :: xs => JWF x ∧ JWFList xs
termination_by xs => sizeOf xs

/-- Well-formedness of the members of a JSON object. -/
def JWFMembers : List (String × JValue) → Prop
  | [] => True
  | (_, v) :: ms => JWF v ∧ JWFMembers ms
termination_by ms => sizeOf ms
decreasing_by all_goals (simp_wf <;> omega)

end

mutual

/-- Fuel needed to parse a stringified value. -/
def jsize : JValue → Nat
  | .null => 1
  | .bool _ => 1
  | .num _ => 1
  | .str _ => 1
  | .arr xs => 1 + jsizeList xs
  | .obj ms => 1 + jsizeMembers ms
termination_by v => sizeOf v

/-- Fuel needed to parse stringified array elements. -/
def jsizeList : List JValue → Nat
  | [] => 0
  | x :: xs => 1 + jsize x + jsizeList xs
termination_by xs => sizeOf xs

/-- Fuel needed to parse stringified object members. -/
def jsizeMembers : List (String × JValue) → Nat
  | [] => 0
  | (_, v) :: ms => 1 + jsize v + jsizeMembers ms
termination_by ms => sizeOf ms
decreasing_by all_goals (simp_wf <;> omega)

end

/-- Constraint on what may follow a stringified value so that the parse
does not greedily continue: only numbers constrain their continuation. -/
def RestOKFor (v : JValue) (rest : List Char) : Prop :=
  match v with
  | .num _ => numHeadOK rest
  | _ => True

theorem RestOKFor_comma (v : JValue) (z : List Char) : RestOKFor v (',' :: z) := by
  match v with
  | .null | .bool _ | .str _ | .arr _ | .obj _ => trivial
  | .num _ => exact ⟨by decide, by decide, by decide, by decide⟩

theorem RestOKFor_newline (v : JValue) (z : List Char) : RestOKFor v ('\n' :: z) := by
  match v with
  | .null | .bool _ | .str _ | .arr _ | .obj _ => trivial
  | .num _ => exact ⟨by decide, by decide, by decide, by decide⟩

theorem numToString_head (q : ℚ) :
    ∃ c cs, numToString q = c :: cs ∧ (c = '-' ∨ isAsciiDigit c = true) := by
  cases hde : decExp q with
  | none =>
    refine ⟨'0', [], ?_, Or.inr (by decide)⟩
    simp [numToString, hde]
  | some e =>
    by_cases he0 : e = 0
    · subst he0
      by_cases hm : (q * (10 : ℚ) ^ 0).num < 0
      · refine ⟨'-', natDigits (q * (10 : ℚ) ^ 0).num.natAbs, ?_, Or.inl rfl⟩
        simp only [numToString, hde, eq_self_iff_true, if_true, intChars, if_pos hm]
      · obtain ⟨d, ds, hnd, hd⟩ := natDigits_head_digit (q * (10 : ℚ) ^ 0).num.natAbs
        refine ⟨d, ds, ?_, Or.inr hd⟩
        simp only [numToString, hde, eq_self_iff_true, if_true, intChars, if_neg hm, hnd]
    · by_cases hm : (q * (10 : ℚ) ^ e).num < 0
      · refine ⟨'-', natDigits ((q * (10 : ℚ) ^ e).num.natAbs / 10 ^ e) ++
          '.' :: padLeftZeros e (natDigits ((q * (10 : ℚ) ^ e).num.natAbs % 10 ^ e)),
          ?_, Or.inl rfl⟩
        simp only [numToString, hde, if_neg he0, if_pos hm]
        rfl
      · obtain ⟨d, ds, hnd, hd⟩ := natDigits_head_digit ((q * (10 : ℚ) ^ e).num.natAbs / 10 ^ e)
        refine ⟨d, ds ++
          '.' :: padLeftZeros e (natDigits ((q * (10 : ℚ) ^ e).num.natAbs % 10 ^ e)),
          ?_, Or.inr hd⟩
        simp only [numToString, hde, if_neg he0, if_neg hm, hnd]
        rfl

theorem jstringify_head (ind : Nat) (v : JValue) :
    ∃ c cs, jstringifyAt ind v = c :: cs ∧ isJsonWs c = false ∧ c ≠ ']' ∧ c ≠ '\x7d' := by
  match v with
  | .null =>
    refine ⟨'n', "ull".toList, ?_, by decide, by decide, by decide⟩
    simp only [jstringifyAt]
    rfl
  | .bool true =>
    refine ⟨'t', "rue".toList, ?_, by decide, by decide, by decide⟩
    simp only [jstringifyAt]
    rfl
  | .bool false =>
    refine ⟨'f', "alse".toList, ?_, by decide, by decide, by decide⟩
    simp only [jstringifyAt]
    rfl
  | .str s =>
    refine ⟨'"', escJString s.toList ++ ['"'], ?_, by decide, by decide, by decide⟩
    simp only [jstringifyAt]
    rfl
  | .arr [] =>
    refine ⟨'[', [']'], ?_, by decide, by decide, by decide⟩
    simp only [jstringifyAt]
    rfl
  | .arr (x :: xs) =>
    refine ⟨'[', '\n' :: (jstringifyItems (ind + 1) x xs ++ '\n' :: indentChars ind ++ [']']),
      ?_, by decide, by decide, by decide⟩
    simp only [jstringifyAt]
  | .obj [] =>
    refine ⟨'\x7b', ['\x7d'], ?_, by decide, by decide, by decide⟩
    simp only [jstringifyAt]
    rfl
  | .obj (m :: ms) =>
    refine ⟨'\x7b', '\n' :: (jstringifyMembers (ind + 1) m ms ++ '\n' :: indentChars ind ++
      ['\x7d']), ?_, by decide, by decide, by decide⟩
    simp only [jstringifyAt]
  | .num q =>
    obtain ⟨c, cs, hnum, hc⟩ := numToString_head q
    simp only [jstringifyAt]
    refine ⟨c, cs, hnum, ?_, ?_, ?_⟩
    · rcases hc with rfl | hdig
      · decide
      · exact (digit_facts c hdig).2.2.2.2.1
    · rcases hc with rfl | hdig
      · decide
      · exact (digit_facts c hdig).2.2.2.2.2.2.2.2.2.2.2.1
    · rcases hc with rfl | hdig
      · decide
      · exact (digit_facts c hdig).2.2.2.2.2.2.2.2.2.2.2.2

theorem skipWs_append_of_headSafe (xs rest : List Char) (c : Char) (cs : List Char)
    (hx : xs = c :: cs) (hc : isJsonWs c = false) :
    skipWs (xs ++ rest) = xs ++ rest := by
  subst hx
  exact skipWs_cons_not c _ hc

theorem escJChar_length_pos (c : Char) : 1 ≤ (escJChar c).length := by
  simp only [escJChar]
  repeat' split
  all_goals simp

theorem escJString_length_ge (s : List Char) : s.length ≤ (escJString s).length := by
  induction s with
  | nil => simp [escJString]
  | cons c rest ih =>
    show (c :: rest).length ≤ (escJChar c ++ escJString rest).length
    rw [List.length_append, List.length_cons]
    have := escJChar_length_pos c
    omega

theorem parseJValue_skipWs_congr (f : Nat) (z1 z2 : List Char) (h : skipWs z1 = skipWs z2) :
    parseJValue f z1 = parseJValue f z2 := by
  match f with
  | 0 => rfl
  | g + 1 => simp only [parseJValue, h]

theorem parseJMembers_skipWs_congr (f : Nat) (z1 z2 : List Char) (h : skipWs z1 = skipWs z2) :
    parseJMembers f z1 = parseJMembers f z2 := by
  match f with
  | 0 => rfl
  | g + 1 => simp only [parseJMembers, h]

theorem parseJElems_ws_cons (f : Nat) (c : Char) (z : List Char) (hc : isJsonWs c = true) :
    parseJElems f (c :: z) = parseJElems f z := by
  match f with
  | 0 => rfl
  | g + 1 =>
    simp only [parseJElems, parseJValue_skipWs_congr g (c :: z) z (skipWs_cons_ws c z hc)]

theorem parseJElems_skipWs_congr (f : Nat) (z1 z2 : List Char) (h : skipWs z1 = skipWs z2) :
    parseJElems f z1 = parseJElems f z2 := by
  match f with
  | 0 => rfl
  | g + 1 => simp only [parseJElems, parseJValue_skipWs_congr g z1 z2 h]

theorem jsize_pos (v : JValue) : 0 < jsize v := by
  match v with
  | .null => simp only [jsize]; omega
  | .bool b => simp only [jsize]; omega
  | .num q => simp only [jsize]; omega
  | .str s => simp only [jsize]; omega
  | .arr xs => simp only [jsize]; omega
  | .obj ms => simp only [jsize]; omega

theorem skipWs_tail_rbrack (n : Nat) (rest : List Char) :
    skipWs ('\n' :: (indentChars n ++ ']' :: rest)) = ']' :: rest := by
  rw [skipWs_cons_ws _ _ (by decide), skipWs_indent, skipWs_cons_not _ _ (by decide)]

theorem skipWs_tail_rbrace (n : Nat) (rest : List Char) :
    skipWs ('\n' :: (indentChars n ++ '\x7d' :: rest)) = '\x7d' :: rest := by
  rw [skipWs_cons_ws _ _ (by decide), skipWs_indent, skipWs_cons_not _ _ (by decide)]

theorem parseJValue_succ_quote (g : Nat) (z : List Char) :
    parseJValue (g + 1) ('"' :: z) =
      (parseJStringAux (z.length + 1) z).map (fun r => (JValue.str (String.mk r.1), r.2)) := rfl

theorem parseJValue_succ_lbrack_cons (g : Nat) (z w : List Char) (c2 : Char)
    (hz : skipWs z = c2 :: w) (hne : c2 ≠ ']') :
    parseJValue (g + 1) ('[' :: z) =
      (parseJElems g (c2 :: w)).map (fun r => (JValue.arr r.1, r.2)) := by
  have h0 : skipWs ('[' :: z) = '[' :: z := skipWs_cons_not _ _ (by decide)
  simp only [parseJValue, h0, hz, if_true,
    if_neg (show ¬(('[' : Char) = '\x7b') by decide)]
  split
  · next heq => exact absurd (List.head_eq_of_cons_eq heq.symm) (Ne.symm hne)
  · rfl

theorem parseJValue_succ_lbrace_cons (g : Nat) (z w : List Char) (c2 : Char)
    (hz : skipWs z = c2 :: w) (hne : c2 ≠ '\x7d') :
    parseJValue (g + 1) ('\x7b' :: z) =
      (parseJMembers g (c2 :: w)).map (fun r => (JValue.obj r.1, r.2)) := by
  have h0 : skipWs ('\x7b' :: z) = '\x7b' :: z := skipWs_cons_not _ _ (by decide)
  simp only [parseJValue, h0, hz, if_true]
  split
  · next heq => exact absurd (List.head_eq_of_cons_eq heq.symm) (Ne.symm hne)
  · rfl

theorem parseJValue_succ_num (g : Nat) (c : Char) (z : List Char)
    (hws : isJsonWs c = false) (h1 : c ≠ '\x7b') (h2 : c ≠ '[') (h3 : c ≠ '"')
    (h4 : c ≠ 't') (h5 : c ≠ 'f') (h6 : c ≠ 'n') :
    parseJValue (g + 1) (c :: z) =
      (parseJNumber (c :: z)).map (fun r => (JValue.num r.1, r.2)) := by
  have h0 : skipWs (c :: z) = c :: z := skipWs_cons_not c z hws
  have ht : ¬((c :: z).take 4 = "true".toList) := by
    intro hcontra
    rw [show (4 : Nat) = 3 + 1 from rfl, List.take_succ_cons,
      show "true".toList = 't' :: "rue".toList from rfl] at hcontra
    injection hcontra with hc _
    exact h4 hc
  have hf : ¬((c :: z).take 5 = "false".toList) := by
    intro hcontra
    rw [show (5 : Nat) = 4 + 1 from rfl, List.take_succ_cons,
      show "false".toList = 'f' :: "alse".toList from rfl] at hcontra
    injection hcontra with hc _
    exact h5 hc
  have hn : ¬((c :: z).take 4 = "null".toList) := by
    intro hcontra
    rw [show (4 : Nat) = 3 + 1 from rfl, List.take_succ_cons,
      show "null".toList = 'n' :: "ull".toList from rfl] at hcontra
    injection hcontra with hc _
    exact h6 hc
  simp only [parseJValue, h0, if_neg h1, if_neg h2, if_neg h3, if_neg ht, if_neg hf, if_neg hn]

theorem skipWs_items_head (ind : Nat) (x : JValue) (xs : List JValue) (z : List Char) :
    ∃ c w, skipWs (jstringifyItems ind x xs ++ z) = c :: w ∧ isJsonWs c = false ∧
      c ≠ ']' ∧ c ≠ '\x7d' := by
  obtain ⟨c, cs, hS, hws, hb1, hb2⟩ := jstringify_head ind x
  match xs with
  | [] =>
    refine ⟨c, cs ++ z, ?_, hws, hb1, hb2⟩
    simp only [jstringifyItems, List.append_assoc, hS, List.cons_append]
    rw [skipWs_indent, skipWs_cons_not c _ hws]
  | y :: ys =>
    refine ⟨c, cs ++ (',' :: '\n' :: (jstringifyItems ind y ys ++ z)), ?_, hws, hb1, hb2⟩
    simp only [jstringifyItems, List.append_assoc, hS, List.cons_append]
    rw [skipWs_indent, skipWs_cons_not c _ hws]

theorem skipWs_members_head (ind : Nat) (k : String) (v : JValue)
    (ms : List (String × JValue)) (z : List Char) :
    ∃ w, skipWs (jstringifyMembers ind (k, v) ms ++ z) = '"' :: w ∧
      jstringifyMembers ind (k, v) ms ++ z = indentChars ind ++ '"' :: w := by
  match ms with
  | [] =>
    refine ⟨escJString k.toList ++ '"' :: (':' :: ' ' :: (jstringifyAt ind v ++ z)), ?_, ?_⟩
    · simp only [jstringifyMembers, quoteJ, List.append_assoc, List.cons_append,
        List.singleton_append, List.nil_append]
      rw [skipWs_indent, skipWs_cons_not _ _ (by decide)]
    · simp only [jstringifyMembers, quoteJ, List.append_assoc, List.cons_append,
        List.singleton_append, List.nil_append]
  | m2 :: ms' =>
    refine ⟨escJString k.toList ++ '"' :: (':' :: ' ' :: (jstringifyAt ind v ++
      (',' :: '\n' :: (jstringifyMembers ind m2 ms' ++ z)))), ?_, ?_⟩
    · simp only [jstringifyMembers, quoteJ, List.append_assoc, List.cons_append,
        List.singleton_append, List.nil_append]
      rw [skipWs_indent, skipWs_cons_not _ _ (by decide)]
    · simp only [jstringifyMembers, quoteJ, List.append_assoc, List.cons_append,
        List.singleton_append, List.nil_append]

theorem parse_jstringify (f : Nat) :
    (∀ v ind rest, JWF v → jsize v ≤ f → RestOKFor v rest →
      parseJValue f (jstringifyAt ind v ++ rest) = some (v, rest)) ∧
    (∀ x xs ind ind2 rest, JWF x → JWFList xs → jsizeList (x :: xs) ≤ f →
      parseJElems f (jstringifyItems ind x xs ++ '\n' :: (indentChars ind2 ++ ']' :: rest)) =
        some (x :: xs, rest)) ∧
    (∀ k v ms ind ind2 rest, JWF v → JWFMembers ms → jsizeMembers ((k, v) :: ms) ≤ f →
      parseJMembers f
          (jstringifyMembers ind (k, v) ms ++ '\n' :: (indentChars ind2 ++ '\x7d' :: rest)) =
        some ((k, v) :: ms, rest)) := by
  induction f with
  | zero =>
    refine ⟨?_, ?_, ?_⟩
    · intro v ind rest _ hsz _
      exact absurd hsz (by have := jsize_pos v; omega)
    · intro x xs ind ind2 rest _ _ hsz
      exact absurd hsz (by simp only [jsizeList]; have := jsize_pos x; omega)
    · intro k v ms ind ind2 rest _ _ hsz
      exact absurd hsz (by simp only [jsizeMembers]; have := jsize_pos v; omega)
  | succ g ih =>
    obtain ⟨ihP, ihQ, ihR⟩ := ih
    refine ⟨?_, ?_, ?_⟩
    · intro v ind rest hwf hsz hrest
      cases v with
      | null =>
        simp only [jstringifyAt]
        rfl
      | bool b =>
        cases b with
        | true => simp only [jstringifyAt]; rfl
        | false => simp only [jstringifyAt]; rfl
      | num q =>
        simp only [JWF] at hwf
        obtain ⟨e, he⟩ := Option.isSome_iff_exists.mp hwf
        obtain ⟨c, cs', hnum, hc⟩ := numToString_head q
        have hfacts : isJsonWs c = false ∧ c ≠ '\x7b' ∧ c ≠ '[' ∧ c ≠ '"' ∧ c ≠ 't' ∧
            c ≠ 'f' ∧ c ≠ 'n' := by
          rcases hc with rfl | hd
          · exact ⟨by decide, by decide, by decide, by decide, by decide, by decide, by decide⟩
          · have h13 := digit_facts c hd
            exact ⟨h13.2.2.2.2.1, h13.2.2.2.2.2.1, h13.2.2.2.2.2.2.1, h13.2.2.2.2.2.2.2.1,
              h13.2.2.2.2.2.2.2.2.1, h13.2.2.2.2.2.2.2.2.2.1, h13.2.2.2.2.2.2.2.2.2.2.1⟩
        simp only [jstringifyAt]
        rw [hnum, List.cons_append,
          parseJValue_succ_num g c (cs' ++ rest) hfacts.1 hfacts.2.1 hfacts.2.2.1
            hfacts.2.2.2.1 hfacts.2.2.2.2.1 hfacts.2.2.2.2.2.1 hfacts.2.2.2.2.2.2,
          ← List.cons_append, ← hnum, parse_numToString q e he rest hrest]
        rfl
      | str s =>
        simp only [jstringifyAt]
        rw [show quoteJ s.toList ++ rest = '"' :: (escJString s.toList ++ '"' :: rest) from by
          simp [quoteJ, List.append_assoc]]
        rw [parseJValue_succ_quote g (escJString s.toList ++ '"' :: rest)]
        rw [parse_escJString s.toList rest ((escJString s.toList ++ '"' :: rest).length + 1)
          (by
            rw [List.length_append, List.length_cons]
            have := escJString_length_ge s.toList
            omega)]
        rfl
      | arr xs =>
        cases xs with
        | nil =>
          simp only [jstringifyAt]
          rfl
        | cons x xs' =>
          simp only [JWF, JWFList] at hwf
          simp only [jsize] at hsz
          simp only [jstringifyAt, List.cons_append, List.append_assoc, List.singleton_append,
            List.nil_append]
          obtain ⟨c2, w, hskipT, hc2ws, hc2b, _⟩ :=
            skipWs_items_head (ind + 1) x xs' ('\n' :: (indentChars ind ++ ']' :: rest))
          have hzskip : skipWs ('\n' :: (jstringifyItems (ind + 1) x xs' ++
              '\n' :: (indentChars ind ++ ']' :: rest))) = c2 :: w := by
            rw [skipWs_cons_ws _ _ (by decide)]
            exact hskipT
          rw [parseJValue_succ_lbrack_cons g _ w c2 hzskip hc2b]
          rw [parseJElems_skipWs_congr g (c2 :: w)
            (jstringifyItems (ind + 1) x xs' ++ '\n' :: (indentChars ind ++ ']' :: rest))
            (by rw [skipWs_cons_not _ _ hc2ws]; exact hskipT.symm)]
          rw [ihQ x xs' (ind + 1) ind rest hwf.1 hwf.2 (by
            simp only [jsizeList] at hsz ⊢
            omega)]
          rfl
      | obj ms =>
        cases ms with
        | nil =>
          simp only [jstringifyAt]
          rfl
        | cons m ms' =>
          obtain ⟨k, v'⟩ := m
          simp only [JWF, JWFMembers] at hwf
          simp only [jsize] at hsz
          simp only [jstringifyAt, List.cons_append, List.append_assoc, List.singleton_append,
            List.nil_append]
          obtain ⟨w, hskipM, _⟩ :=
            skipWs_members_head (ind + 1) k v' ms' ('\n' :: (indentChars ind ++ '\x7d' :: rest))
          have hzskip : skipWs ('\n' :: (jstringifyMembers (ind + 1) (k, v') ms' ++
              '\n' :: (indentChars ind ++ '\x7d' :: rest))) = '"' :: w := by
            rw [skipWs_cons_ws _ _ (by decide)]
            exact hskipM
          rw [parseJValue_succ_lbrace_cons g _ w '"' hzskip (by decide)]
          rw [parseJMembers_skipWs_congr g ('"' :: w)
            (jstringifyMembers (ind + 1) (k, v') ms' ++
              '\n' :: (indentChars ind ++ '\x7d' :: rest))
            (by rw [skipWs_cons_not _ _ (by decide)]; exact hskipM.symm)]
          rw [ihR k v' ms' (ind + 1) ind rest hwf.1 hwf.2 (by
            simp only [jsizeMembers] at hsz ⊢
            omega)]
          rfl
    · intro x xs ind ind2 rest hwx hwxs hsz
      simp only [jsizeList] at hsz
      have hcomma : ∀ z : List Char, skipWs (',' :: z) = ',' :: z :=
        fun z => skipWs_cons_not _ _ (by decide)
      cases xs with
      | nil =>
        simp only [jstringifyItems, List.append_assoc]
        simp only [parseJElems,
          parseJValue_skipWs_congr g
            (indentChars ind ++ (jstringifyAt ind x ++
              '\n' :: (indentChars ind2 ++ ']' :: rest)))
            (jstringifyAt ind x ++ '\n' :: (indentChars ind2 ++ ']' :: rest))
            (skipWs_indent ind _),
          ihP x ind ('\n' :: (indentChars ind2 ++ ']' :: rest)) hwx (by omega)
            (RestOKFor_newline x _),
          skipWs_tail_rbrack]
      | cons y ys =>
        simp only [JWFList] at hwxs
        have hnl : parseJElems g ('\n' :: (jstringifyItems ind y ys ++
            '\n' :: (indentChars ind2 ++ ']' :: rest))) =
            parseJElems g (jstringifyItems ind y ys ++
              '\n' :: (indentChars ind2 ++ ']' :: rest)) :=
          parseJElems_ws_cons _ _ _ (by decide)
        simp only [jstringifyItems, List.append_assoc, List.cons_append]
        simp only [parseJElems,
          parseJValue_skipWs_congr g
            (indentChars ind ++ (jstringifyAt ind x ++
              ',' :: '\n' :: (jstringifyItems ind y ys ++
                '\n' :: (indentChars ind2 ++ ']' :: rest))))
            (jstringifyAt ind x ++ ',' :: '\n' :: (jstringifyItems ind y ys ++
              '\n' :: (indentChars ind2 ++ ']' :: rest)))
            (skipWs_indent ind _),
          ihP x ind (',' :: '\n' :: (jstringifyItems ind y ys ++
            '\n' :: (indentChars ind2 ++ ']' :: rest))) hwx (by omega)
            (RestOKFor_comma x _),
          hcomma, hnl,
          ihQ y ys ind ind2 rest hwxs.1 hwxs.2 (by omega),
          Option.map_some']
    · intro k v ms ind ind2 rest hwv hwms hsz
      simp only [jsizeMembers] at hsz
      have hq : ∀ z : List Char, skipWs ('"' :: z) = '"' :: z :=
        fun z => skipWs_cons_not _ _ (by decide)
      have hcolon : ∀ z : List Char, skipWs (':' :: z) = ':' :: z :=
        fun z => skipWs_cons_not _ _ (by decide)
      have hcomma : ∀ z : List Char, skipWs (',' :: z) = ',' :: z :=
        fun z => skipWs_cons_not _ _ (by decide)
      have hmk : String.mk k.toList = k := rfl
      cases ms with
      | nil =>
        have hK : parseJStringAux ((escJString k.toList ++ '"' :: ':' :: ' ' ::
            (jstringifyAt ind v ++ '\n' :: (indentChars ind2 ++ '\x7d' :: rest))).length + 1)
            (escJString k.toList ++ '"' :: ':' :: ' ' ::
              (jstringifyAt ind v ++ '\n' :: (indentChars ind2 ++ '\x7d' :: rest))) =
            some (k.toList, ':' :: ' ' ::
              (jstringifyAt ind v ++ '\n' :: (indentChars ind2 ++ '\x7d' :: rest))) := by
          apply parse_escJString
          rw [List.length_append, List.length_cons]
          have := escJString_length_ge k.toList
          omega
        have hsp : parseJValue g (' ' :: (jstringifyAt ind v ++
            '\n' :: (indentChars ind2 ++ '\x7d' :: rest))) =
            parseJValue g (jstringifyAt ind v ++
              '\n' :: (indentChars ind2 ++ '\x7d' :: rest)) :=
          parseJValue_skipWs_congr _ _ _ (skipWs_cons_ws _ _ (by decide))
        simp only [jstringifyMembers, quoteJ, List.append_assoc, List.cons_append,
          List.singleton_append, List.nil_append]
        simp only [parseJMembers, skipWs_indent, hq, hK, hcolon, hsp,
          ihP v ind ('\n' :: (indentChars ind2 ++ '\x7d' :: rest)) hwv (by omega)
            (RestOKFor_newline v _),
          skipWs_tail_rbrace, hmk]
      | cons m2 ms' =>
        obtain ⟨k2, v2⟩ := m2
        simp only [JWFMembers] at hwms
        have hK : parseJStringAux ((escJString k.toList ++ '"' :: ':' :: ' ' ::
            (jstringifyAt ind v ++ ',' :: '\n' :: (jstringifyMembers ind (k2, v2) ms' ++
              '\n' :: (indentChars ind2 ++ '\x7d' :: rest)))).length + 1)
            (escJString k.toList ++ '"' :: ':' :: ' ' ::
              (jstringifyAt ind v ++ ',' :: '\n' :: (jstringifyMembers ind (k2, v2) ms' ++
                '\n' :: (indentChars ind2 ++ '\x7d' :: rest)))) =
            some (k.toList, ':' :: ' ' ::
              (jstringifyAt ind v ++ ',' :: '\n' :: (jstringifyMembers ind (k2, v2) ms' ++
                '\n' :: (indentChars ind2 ++ '\x7d' :: rest)))) := by
          apply parse_escJString
          rw [List.length_append, List.length_cons]
          have := escJString_length_ge k.toList
          omega
        have hsp : parseJValue g (' ' :: (jstringifyAt ind v ++
            ',' :: '\n' :: (jstringifyMembers ind (k2, v2) ms' ++
              '\n' :: (indentChars ind2 ++ '\x7d' :: rest)))) =
            parseJValue g (jstringifyAt ind v ++
              ',' :: '\n' :: (jstringifyMembers ind (k2, v2) ms' ++
                '\n' :: (indentChars ind2 ++ '\x7d' :: rest))) :=
          parseJValue_skipWs_congr _ _ _ (skipWs_cons_ws _ _ (by decide))
        have hnl : parseJMembers g ('\n' :: (jstringifyMembers ind (k2, v2) ms' ++
            '\n' :: (indentChars ind2 ++ '\x7d' :: rest))) =
            parseJMembers g (jstringifyMembers ind (k2, v2) ms' ++
              '\n' :: (indentChars ind2 ++ '\x7d' :: rest)) :=
          parseJMembers_skipWs_congr _ _ _ (skipWs_cons_ws _ _ (by decide))
        simp only [jstringifyMembers, quoteJ, List.append_assoc, List.cons_append,
          List.singleton_append, List.nil_append]
        simp only [parseJMembers, skipWs_indent, hq, hK, hcolon, hsp,
          ihP v ind (',' :: '\n' :: (jstringifyMembers ind (k2, v2) ms' ++
            '\n' :: (indentChars ind2 ++ '\x7d' :: rest))) hwv (by omega)
            (RestOKFor_comma v _),
          hcomma, hnl,
          ihR k2 v2 ms' ind ind2 rest hwms.1 hwms.2 (by omega),
          hmk, Option.map_some']

mutual

theorem jsize_le_len (ind : Nat) (v : JValue) : jsize v ≤ (jstringifyAt ind v).length := by
  match v with
  | .null => simp only [jsize, jstringifyAt]; decide
  | .bool true => simp only [jsize, jstringifyAt]; decide
  | .bool false => simp only [jsize, jstringifyAt]; decide
  | .num q =>
    obtain ⟨c, cs, hn, _⟩ := numToString_head q
    simp only [jsize, jstringifyAt, hn, List.length_cons]
    omega
  | .str s =>
    simp only [jsize, jstringifyAt, quoteJ, List.length_cons, List.length_append]
    omega
  | .arr [] => simp only [jsize, jsizeList, jstringifyAt]; decide
  | .obj [] => simp only [jsize, jsizeMembers, jstringifyAt]; decide
  | .arr (x :: xs) =>
    have h := jsizeList_le_len (ind + 1) x xs
    simp only [jsize, jstringifyAt, List.length_cons, List.length_append]
    omega
  | .obj ((k, v2) :: ms) =>
    have h := jsizeMembers_le_len (ind + 1) k v2 ms
    simp only [jsize, jstringifyAt, List.length_cons, List.length_append]
    omega
termination_by sizeOf v
decreasing_by all_goals (simp_wf <;> omega)

theorem jsizeList_le_len (ind : Nat) (x : JValue) (xs : List JValue) :
    jsizeList (x :: xs) ≤ (jstringifyItems ind x xs).length + 1 := by
  match xs with
  | [] =>
    have h := jsize_le_len ind x
    simp only [jsizeList, jstringifyItems, List.length_append]
    omega
  | y :: ys =>
    have h1 := jsize_le_len ind x
    have h2 := jsizeList_le_len ind y ys
    simp only [jsizeList] at h2 ⊢
    simp only [jstringifyItems, List.length_append, List.length_cons]
    omega
termination_by sizeOf x + sizeOf xs
decreasing_by all_goals (simp_wf <;> omega)

theorem jsizeMembers_le_len (ind : Nat) (k : String) (v : JValue)
    (ms : List (String × JValue)) :
    jsizeMembers ((k, v) :: ms) ≤ (jstringifyMembers ind (k, v) ms).length + 1 := by
  match ms with
  | [] =>
    have h := jsize_le_len ind v
    simp only [jsizeMembers, jstringifyMembers, List.length_append, List.length_cons]
    omega
  | (k2, v2) :: ms2 =>
    have h1 := jsize_le_len ind v
    have h2 := jsizeMembers_le_len ind k2 v2 ms2
    simp only [jsizeMembers] at h2 ⊢
    simp only [jstringifyMembers, List.length_append, List.length_cons]
    omega
termination_by sizeOf k + sizeOf v + sizeOf ms
decreasing_by all_goals (simp_wf <;> omega)

end

theorem RestOKFor_nil (v : JValue) : RestOKFor v [] := by
  match v with
  | .null | .bool _ | .str _ | .arr _ | .obj _ => trivial
  | .num _ => trivial

/-- On well-formed values, the modelled `JSON.parse` inverts the modelled
`JSON.stringify(v, null, 2)`. -/
theorem jsonParse_jstringify (v : JValue) (h : JWF v) :
    jsonParse (String.mk (jstringifyAt 0 v)) = some v := by
  have hb : jsize v ≤ (jstringifyAt 0 v).length + 1 := by
    have := jsize_le_len 0 v
    omega
  have hP := (parse_jstringify ((jstringifyAt 0 v).length + 1)).1 v 0 [] h hb (RestOKFor_nil v)
  rw [List.append_nil] at hP
  have e1 : (String.mk (jstringifyAt 0 v)).length = (jstringifyAt 0 v).length := rfl
  have e2 : (String.mk (jstringifyAt 0 v)).toList = jstringifyAt 0 v := rfl
  have e3 : skipWs ([] : List Char) = [] := rfl
  simp only [jsonParse, e1, e2, hP, e3, eq_self_iff_true, if_true]

/-- A coordinate fit for the JSON round trip back into the typed state
space: a finite JavaScript number (not `NaN`, which `JSON.stringify` turns
into `null`) with a finite decimal expansion. -/
def coordWF (n : JSNum) : Bool :=
  match n with
  | .nan => false
  | .val q => (decExp q).isSome

/-- All three coordinates of a stored comment are round-trip fit. -/
def commentWF (c : StoredComment) : Bool :=
  coordWF c.position_x && coordWF c.position_y && coordWF c.position_z

/-- Every comment of the document is round-trip fit. -/
def dataWF (d : CommentsData) : Bool :=
  d.comments.all (fun p => p.2.all commentWF)

theorem JWF_encodeNum (n : JSNum) (h : coordWF n = true) : JWF (encodeNum n) := by
  match n with
  | .nan => simp [coordWF] at h
  | .val q =>
    simp only [coordWF] at h
    simp only [encodeNum, JWF]
    exact h

theorem JWF_encodeComment (c : StoredComment) (h : commentWF c = true) :
    JWF (encodeComment c) := by
  simp only [commentWF, Bool.and_eq_true] at h
  simp only [encodeComment, JWF, JWFMembers, true_and, and_true]
  refine ⟨JWF_encodeNum _ h.1.1, JWF_encodeNum _ h.1.2, JWF_encodeNum _ h.2, ?_⟩
  cases c.featureName with
  | none => simp only [JWF]
  | some s => simp only [JWF]

theorem JWF_encodeScene (cs : List StoredComment) (h : cs.all commentWF = true) :
    JWFList (cs.map encodeComment) := by
  induction cs with
  | nil => simp only [List.map_nil, JWFList]
  | cons c cs2 ih =>
    simp only [List.all_cons, Bool.and_eq_true] at h
    simp only [List.map_cons, JWFList]
    exact ⟨JWF_encodeComment c h.1, ih h.2⟩

theorem JWF_scenes (l : List (String × List StoredComment))
    (h : l.all (fun p => p.2.all commentWF) = true) :
    JWFMembers (l.map (fun p => (p.1, JValue.arr (p.2.map encodeComment)))) := by
  induction l with
  | nil => simp only [List.map_nil, JWFMembers]
  | cons p l2 ih =>
    obtain ⟨k, cs⟩ := p
    simp only [List.all_cons, Bool.and_eq_true] at h
    simp only [List.map_cons, JWFMembers]
    refine ⟨?_, ih h.2⟩
    simp only [JWF]
    exact JWF_encodeScene cs h.1

theorem JWF_encodeData (d : CommentsData) (h : dataWF d = true) : JWF (encodeData d) := by
  simp only [dataWF] at h
  simp only [encodeData, JWF, JWFMembers, and_true]
  exact JWF_scenes d.comments h

theorem decodeNum_encodeNum (n : JSNum) (h : coordWF n = true) :
    decodeNum (encodeNum n) = some n := by
  match n with
  | .nan => simp [coordWF] at h
  | .val q => rfl

theorem decodeComment_encodeComment (c : StoredComment) (h : commentWF c = true) :
    decodeComment (encodeComment c) = some c := by
  obtain ⟨id0, text0, px, py, pz, fn, ts, us, sz⟩ := c
  simp only [commentWF, Bool.and_eq_true] at h
  cases fn with
  | none =>
    simp only [encodeComment, decodeComment, decodeNum_encodeNum _ h.1.1,
      decodeNum_encodeNum _ h.1.2, decodeNum_encodeNum _ h.2, decodeFeature]
  | some s =>
    simp only [encodeComment, decodeComment, decodeNum_encodeNum _ h.1.1,
      decodeNum_encodeNum _ h.1.2, decodeNum_encodeNum _ h.2, decodeFeature]

theorem decodeScene_comments (cs : List StoredComment) (h : cs.all commentWF = true) :
    (cs.map encodeComment).mapM decodeComment = some cs := by
  induction cs with
  | nil => rfl
  | cons c cs2 ih =>
    simp only [List.all_cons, Bool.and_eq_true] at h
    simp only [List.map_cons, List.mapM_cons, decodeComment_encodeComment c h.1, ih h.2]
    rfl

theorem scenes_mapM (l : List (String × List StoredComment))
    (h : l.all (fun p => p.2.all commentWF) = true) :
    (l.map (fun p => (p.1, JValue.arr (p.2.map encodeComment)))).mapM
        (fun p => (decodeScene p.2).map (fun q => (p.1, q))) = some l := by
  induction l with
  | nil => rfl
  | cons p l2 ih =>
    obtain ⟨k, cs⟩ := p
    simp only [List.all_cons, Bool.and_eq_true] at h
    simp only [List.map_cons, List.mapM_cons, ih h.2]
    simp only [decodeScene, decodeScene_comments cs h.1]
    rfl

theorem decodeData_encodeData (d : CommentsData) (h : dataWF d = true) :
    decodeData (encodeData d) = some d := by
  obtain ⟨comments, ⟨ver⟩⟩ := d
  simp only [dataWF] at h
  simp only [encodeData, decodeData, scenes_mapM comments h]
  rfl

/-- A concrete store with one scene and one comment whose coordinates are
finite decimals, for the round-trip witness. -/
def c9Store : Store :=
  mkStore ⟨[("scene-1", [⟨"1700000000000", "hello", .val 1, .val (3 / 2 : ℚ), .val 0, none,
    "2024-01-01T00:00:00.000Z", "alice", "scene-1"⟩])], ⟨"2.1"⟩⟩

/-- C9: for every store whose comment coordinates are finite JavaScript
numbers (not `NaN`, each with a finite decimal expansion — true of every
JavaScript double), `importData(exportJSON())` on the untouched store
succeeds and yields a store whose `getStats()` (total comment count, scene
count, scene list) is identical to the stats before the export. -/
theorem json_roundtrip_stats (st : Store) (h : dataWF st.data = true) :
    ∃ st2, importData (exportJSON st) st = (true, some st2) ∧
      getStats st2 = getStats st := by
  refine ⟨saveToStorage st, ?_, ?_⟩
  · have hparse : jsonParse (exportJSON st) = some (encodeData st.data) :=
      jsonParse_jstringify (encodeData st.data) (JWF_encodeData st.data h)
    have hval : jsTruthyObject (jsGetField (encodeData st.data) "comments") = true := rfl
    simp only [importData, importValidated, hparse, hval, if_true,
      decodeData_encodeData st.data h]
    rfl
  · rfl

set_option maxRecDepth 100000 in
/-- Witness for C9: the round trip at a concrete one-comment store. -/
theorem json_roundtrip_stats_witness :
    dataWF c9Store.data = true ∧
    ∃ st2, importData (exportJSON c9Store) c9Store = (true, some st2) ∧
      getStats st2 = getStats c9Store :=
  ⟨by with_unfolding_all decide, json_roundtrip_stats c9Store (by with_unfolding_all decide)⟩

end Baw
